import Mathlib

/-!
Verification of the `te` interactive command-line editor.

Strings are modelled as `List Char`; byte indices into UTF-8 text are
modelled through `Char.utf8Size`.  Rust `Vec` operations that panic on an
out-of-range index are modelled as `Option`-returning functions (`none` =
panic).  Third-party code that the crate calls (the `shlex` word splitter
and the `unicode-width` table) is not part of the repository; where needed
it is modelled from the spec, as marked in the doc comments.
-/

namespace Te

/-- Total UTF-8 byte length of a list of characters (Rust `str::len`). -/
def utf8Len : List Char → Nat
  | [] => 0
  | c :: cs => c.utf8Size + utf8Len cs

theorem utf8Len_append (a b : List Char) :
    utf8Len (a ++ b) = utf8Len a + utf8Len b := by
  induction a with
  | nil => simp [utf8Len]
  | cons c cs ih => simp [utf8Len, ih]; omega

@[simp] theorem utf8Len_nil : utf8Len [] = 0 := rfl

@[simp] theorem utf8Len_cons (c : Char) (cs : List Char) :
    utf8Len (c :: cs) = c.utf8Size + utf8Len cs := rfl

theorem utf8Len_eq_zero {a : List Char} (h : utf8Len a = 0) : a = [] := by
  cases a with
  | nil => rfl
  | cons c cs =>
    exfalso
    have hc := Char.utf8Size_pos c
    simp [utf8Len] at h
    omega

/-- Rust `char::is_whitespace`: the Unicode White_Space code points. -/
def rustIsWhitespace (c : Char) : Bool :=
  c.val = 0x09 ∨ c.val = 0x0A ∨ c.val = 0x0B ∨ c.val = 0x0C ∨ c.val = 0x0D ∨
  c.val = 0x20 ∨ c.val = 0x85 ∨ c.val = 0xA0 ∨ c.val = 0x1680 ∨
  (0x2000 ≤ c.val ∧ c.val ≤ 0x200A) ∨ c.val = 0x2028 ∨ c.val = 0x2029 ∨
  c.val = 0x202F ∨ c.val = 0x205F ∨ c.val = 0x3000

/-!
## The shell word splitter

`Command::try_from` and `parse_command` delegate word splitting to the
external `shlex` crate, which is not part of this repository.  Modelled
from the spec: POSIX-like shell quoting rules — single/double quotes group
whitespace, a backslash escapes the next character, a segment with
unbalanced quoting fails.  The model is a character-level state machine;
it also reflects the splitter's comment rule (an unquoted `#` where a new
word would start skips the rest of the line) and its double-quote escape
rule (inside `"..."` a backslash is dropped only before `$`, a backtick,
`"`, `\`; before a newline the pair is dropped; otherwise it is literal).
-/

/-- State of the word-splitting state machine. -/
inductive SxState : Type
  | out : SxState
  | comment : SxState
  | word (acc : List Char) : SxState
  | wordEsc (acc : List Char) : SxState
  | single (acc : List Char) : SxState
  | double (acc : List Char) : SxState
  | doubleEsc (acc : List Char) : SxState
deriving DecidableEq

/-- One step of the word splitter on one character.  The second component
accumulates the finished words. -/
def sxStep : SxState × List (List Char) → Char → SxState × List (List Char)
  | (.out, ws), c =>
    if c = ' ' ∨ c = '\t' ∨ c = '\n' then (.out, ws)
    else if c = '#' then (.comment, ws)
    else if c = '\'' then (.single [], ws)
    else if c = '"' then (.double [], ws)
    else if c = '\\' then (.wordEsc [], ws)
    else (.word [c], ws)
  | (.comment, ws), c => if c = '\n' then (.out, ws) else (.comment, ws)
  | (.word acc, ws), c =>
    if c = ' ' ∨ c = '\t' ∨ c = '\n' then (.out, ws ++ [acc])
    else if c = '\'' then (.single acc, ws)
    else if c = '"' then (.double acc, ws)
    else if c = '\\' then (.wordEsc acc, ws)
    else (.word (acc ++ [c]), ws)
  | (.wordEsc acc, ws), c =>
    if c = '\n' then (.word acc, ws) else (.word (acc ++ [c]), ws)
  | (.single acc, ws), c =>
    if c = '\'' then (.word acc, ws) else (.single (acc ++ [c]), ws)
  | (.double acc, ws), c =>
    if c = '"' then (.word acc, ws)
    else if c = '\\' then (.doubleEsc acc, ws)
    else (.double (acc ++ [c]), ws)
  | (.doubleEsc acc, ws), c =>
    if c = '$' ∨ c.val = 96 ∨ c = '"' ∨ c = '\\' then (.double (acc ++ [c]), ws)
    else if c = '\n' then (.double acc, ws)
    else (.double (acc ++ ['\\', c]), ws)

/-- Finish the machine at end of input: in-progress quoting or a dangling
backslash is unbalanced input (`None`). -/
def sxFinish : SxState × List (List Char) → Option (List (List Char))
  | (.out, ws) => some ws
  | (.comment, ws) => some ws
  | (.word acc, ws) => some (ws ++ [acc])
  | (.wordEsc _, _) => none
  | (.single _, _) => none
  | (.double _, _) => none
  | (.doubleEsc _, _) => none

/-- `shlex::split`: split a string into shell words, `none` on unbalanced
quoting. -/
def shlexSplit (s : List Char) : Option (List (List Char)) :=
  sxFinish (s.foldl sxStep (.out, []))

/-!
## The quoting serializer (`src/command.rs`, `quote_if_needed`)
-/

/-- The quoting trigger of `quote_if_needed`: any whitespace or one of
`"`, `'`, `\`, newline, carriage return, tab. -/
def needsQuoting (s : List Char) : Bool :=
  s.any fun c =>
    rustIsWhitespace c ||
      (c = '"' || c = '\'' || c = '\\' || c = '\n' || c = '\r' || c = '\t')

/-- Single-quote-style escaping of one character: a literal single quote
becomes the four characters of close-escape-reopen. -/
def escSingleChar (c : Char) : List Char :=
  if c = '\'' then ['\'', '\\', '\'', '\''] else [c]

/-- Double-quote-style escaping of one character: backslash and double
quote are prefixed with a backslash. -/
def escDoubleChar (c : Char) : List Char :=
  if c = '\\' then ['\\', '\\'] else if c = '"' then ['\\', '"'] else [c]

/-- `quote_if_needed` from `src/command.rs`. -/
def quote_if_needed (s : List Char) : List Char :=
  if needsQuoting s then
    let double_quotes := (s.filter fun c => c = '"').length
    let single_quotes := (s.filter fun c => c = '\'').length
    if double_quotes > single_quotes then
      '\'' :: (s.map escSingleChar).flatten ++ ['\'']
    else
      '"' :: (s.map escDoubleChar).flatten ++ ['"']
  else s

/-!
## The quoting round trip (C1, C2)
-/

/-- A character the word splitter treats literally inside a bare word. -/
def PlainChar (c : Char) : Prop :=
  c ≠ ' ' ∧ c ≠ '\t' ∧ c ≠ '\n' ∧ c ≠ '\'' ∧ c ≠ '"' ∧ c ≠ '\\'

theorem foldl_sxStep_word (t : List Char) (hp : ∀ c ∈ t, PlainChar c)
    (acc : List Char) (ws : List (List Char)) :
    List.foldl sxStep (SxState.word acc, ws) t = (SxState.word (acc ++ t), ws) := by
  induction t generalizing acc with
  | nil => simp
  | cons c cs ih =>
    obtain ⟨h1, h2, h3, h4, h5, h6⟩ := hp c (List.mem_cons_self c cs)
    have hstep : sxStep (SxState.word acc, ws) c = (SxState.word (acc ++ [c]), ws) := by
      simp [sxStep, h1, h2, h3, h4, h5, h6]
    rw [List.foldl_cons, hstep, ih (fun c hc => hp c (List.mem_cons_of_mem _ hc))]
    simp

theorem foldl_sxStep_single (t : List Char) (acc : List Char) (ws : List (List Char)) :
    List.foldl sxStep (SxState.single acc, ws) ((t.map escSingleChar).flatten)
      = (SxState.single (acc ++ t), ws) := by
  induction t generalizing acc with
  | nil => simp
  | cons c cs ih =>
    by_cases hc : c = '\''
    · subst hc
      have : escSingleChar '\'' = ['\'', '\\', '\'', '\''] := by decide
      simp only [List.map_cons, List.flatten_cons, this, List.cons_append,
        List.foldl_cons]
      have s1 : sxStep (SxState.single acc, ws) '\'' = (SxState.word acc, ws) := by
        simp [sxStep]
      have s2 : sxStep (SxState.word acc, ws) '\\' = (SxState.wordEsc acc, ws) := by
        simp [sxStep]
      have s3 : sxStep (SxState.wordEsc acc, ws) '\'' = (SxState.word (acc ++ ['\'']), ws) := by
        simp [sxStep]
      have s4 : sxStep (SxState.word (acc ++ ['\'']), ws) '\''
          = (SxState.single (acc ++ ['\'']), ws) := by
        simp [sxStep]
      rw [s1, s2, s3, s4, List.nil_append, ih]
      simp
    · have : escSingleChar c = [c] := by simp [escSingleChar, hc]
      simp only [List.map_cons, List.flatten_cons, this, List.singleton_append,
        List.foldl_cons]
      have s1 : sxStep (SxState.single acc, ws) c = (SxState.single (acc ++ [c]), ws) := by
        simp [sxStep, hc]
      rw [s1, ih]
      simp

theorem foldl_sxStep_double (t : List Char) (acc : List Char) (ws : List (List Char)) :
    List.foldl sxStep (SxState.double acc, ws) ((t.map escDoubleChar).flatten)
      = (SxState.double (acc ++ t), ws) := by
  induction t generalizing acc with
  | nil => simp
  | cons c cs ih =>
    by_cases hb : c = '\\'
    · subst hb
      have : escDoubleChar '\\' = ['\\', '\\'] := by decide
      simp only [List.map_cons, List.flatten_cons, this, List.cons_append,
        List.foldl_cons]
      have s1 : sxStep (SxState.double acc, ws) '\\' = (SxState.doubleEsc acc, ws) := by
        simp [sxStep]
      have s2 : sxStep (SxState.doubleEsc acc, ws) '\\'
          = (SxState.double (acc ++ ['\\']), ws) := by
        simp [sxStep]
      rw [s1, s2, List.nil_append, ih]
      simp
    · by_cases hq : c = '"'
      · subst hq
        have : escDoubleChar '"' = ['\\', '"'] := by decide
        simp only [List.map_cons, List.flatten_cons, this, List.cons_append,
          List.foldl_cons]
        have s1 : sxStep (SxState.double acc, ws) '\\' = (SxState.doubleEsc acc, ws) := by
          simp [sxStep]
        have s2 : sxStep (SxState.doubleEsc acc, ws) '"'
            = (SxState.double (acc ++ ['"']), ws) := by
          simp [sxStep]
        rw [s1, s2, List.nil_append, ih]
        simp
      · have : escDoubleChar c = [c] := by simp [escDoubleChar, hb, hq]
        simp only [List.map_cons, List.flatten_cons, this, List.singleton_append,
          List.foldl_cons]
        have s1 : sxStep (SxState.double acc, ws) c = (SxState.double (acc ++ [c]), ws) := by
          simp [sxStep, hb, hq]
        rw [s1, ih]
        simp

theorem plain_of_not_quoting {s : List Char} (hq : needsQuoting s = false) :
    ∀ c ∈ s, PlainChar c := by
  intro c hc
  have h := List.any_eq_false.mp hq c hc
  refine ⟨?_, ?_, ?_, ?_, ?_, ?_⟩ <;> rintro rfl <;> revert h <;> decide

/-- C1 (amended): for every nonempty string `s` that, if it starts with `#`,
contains a character triggering quoting, splitting `quote_if_needed s` as
shell words yields exactly the single word `s`.  (The empty string quotes
to the empty output, which splits into zero words; an unquoted string
starting with `#` is taken as a comment by the splitter.) -/
theorem quote_roundtrip_amended (s : List Char) (h1 : s ≠ [])
    (h2 : s.head? = some '#' → needsQuoting s = true) :
    shlexSplit (quote_if_needed s) = some [s] := by
  by_cases hq : needsQuoting s
  · -- the string is quoted
    by_cases hgt : ((s.filter fun c => c = '"').length > (s.filter fun c => c = '\'').length)
    · have hquote : quote_if_needed s = '\'' :: (s.map escSingleChar).flatten ++ ['\''] := by
        simp [quote_if_needed, hq, hgt]
      rw [hquote]
      unfold shlexSplit
      rw [List.cons_append, List.foldl_cons]
      have s0 : sxStep (SxState.out, []) '\'' = (SxState.single [], []) := by decide
      rw [s0, List.foldl_append, foldl_sxStep_single s [] []]
      have s1 : List.foldl sxStep (SxState.single ([] ++ s), []) ['\'']
          = (SxState.word s, []) := by
        rw [List.foldl_cons]
        simp [sxStep]
      rw [s1]
      simp [sxFinish]
    · have hquote : quote_if_needed s = '"' :: (s.map escDoubleChar).flatten ++ ['"'] := by
        simp [quote_if_needed, hq, hgt]
      rw [hquote]
      unfold shlexSplit
      rw [List.cons_append, List.foldl_cons]
      have s0 : sxStep (SxState.out, []) '"' = (SxState.double [], []) := by decide
      rw [s0, List.foldl_append, foldl_sxStep_double s [] []]
      have s1 : List.foldl sxStep (SxState.double ([] ++ s), []) ['"']
          = (SxState.word s, []) := by
        rw [List.foldl_cons]
        simp [sxStep]
      rw [s1]
      simp [sxFinish]
  · -- no quoting needed: the string is returned unchanged
    have hquote : quote_if_needed s = s := by simp [quote_if_needed, hq]
    rw [hquote]
    obtain ⟨c, t, rfl⟩ : ∃ c t, s = c :: t := by
      cases s with
      | nil => exact absurd rfl h1
      | cons c t => exact ⟨c, t, rfl⟩
    have hqf : needsQuoting (c :: t) = false := by
      simpa using hq
    have hplain := plain_of_not_quoting hqf
    obtain ⟨p1, p2, p3, p4, p5, p6⟩ := hplain c (List.mem_cons_self c t)
    have hhash : c ≠ '#' := by
      intro hcl
      have : needsQuoting (c :: t) = true := h2 (by simp [hcl])
      rw [this] at hqf
      cases hqf
    unfold shlexSplit
    rw [List.foldl_cons]
    have s0 : sxStep (SxState.out, []) c = (SxState.word [c], []) := by
      simp [sxStep, p1, p2, p3, p4, p5, p6, hhash]
    rw [s0, foldl_sxStep_word t (fun x hx => hplain x (List.mem_cons_of_mem _ hx)) [c] []]
    simp [sxFinish]

/-- C1 counterexample: the claimed universal round trip fails for the empty
string — `quote_if_needed ""` is `""`, which tokenizes to zero shell words
rather than the single empty word. -/
theorem quote_roundtrip_empty_cex :
    shlexSplit (quote_if_needed []) ≠ some [([] : List Char)] := by decide

/-- Witness for `quote_roundtrip_amended` at a concrete input. -/
theorem quote_roundtrip_witness :
    shlexSplit (quote_if_needed ['l', 's']) = some [['l', 's']] :=
  quote_roundtrip_amended ['l', 's'] (by decide) (by decide)

/-- C2: if a string needs quoting, then when its double-quote count exceeds
its single-quote count `quote_if_needed` wraps it in single quotes replacing
each `'` with the four characters `'\''` (backslashes untouched); otherwise
(equal counts included) it wraps it in double quotes escaping exactly `\`
and `"`. -/
theorem quote_style_selection (s : List Char) (h : needsQuoting s = true) :
    ((s.filter fun c => c = '"').length > (s.filter fun c => c = '\'').length →
      quote_if_needed s =
        '\'' :: (s.map fun c =>
          if c = '\'' then ['\'', '\\', '\'', '\''] else [c]).flatten ++ ['\'']) ∧
    ((s.filter fun c => c = '"').length ≤ (s.filter fun c => c = '\'').length →
      quote_if_needed s =
        '"' :: (s.map fun c =>
          if c = '\\' then ['\\', '\\']
          else if c = '"' then ['\\', '"'] else [c]).flatten ++ ['"']) := by
  constructor
  · intro hcnt
    simp only [quote_if_needed, h, if_true]
    rw [if_pos hcnt]
    rfl
  · intro hcnt
    simp only [quote_if_needed, h, if_true]
    rw [if_neg (Nat.not_lt.mpr hcnt)]
    rfl

/-- Witness for `quote_style_selection` at a concrete input. -/
theorem quote_style_selection_witness :
    quote_if_needed ['"'] =
      '\'' :: ((['"'].map fun c =>
        if c = '\'' then ['\'', '\\', '\'', '\''] else [c]).flatten) ++ ['\''] :=
  (quote_style_selection ['"'] (by decide)).1 (by decide)

/-!
## The tokenizer/classifier (`src/command_parser.rs`)

`CommandComponent` is referenced by `command_parser.rs` but declared in the
crate's `app` module, which the snapshot does not carry in that form; its
constructors are fixed by the uses in `parse_command`.
-/

/-- A classified token of the command document. -/
inductive CommandComponent : Type
  | base (s : List Char)
  | flag (s : List Char)
  | value (s : List Char)
  | lineBreak
deriving DecidableEq

/-- Whether a token starts with `-` (Rust `starts_with('-')`). -/
def startsWithDash (t : List Char) : Bool := t.head? = some '-'

/-- `token.find('=')`: split a token at the first `=`, if it has one. -/
def splitAtEq (t : List Char) : Option (List Char × List Char) :=
  if '=' ∈ t then
    some (t.takeWhile (fun c => c ≠ '='), (t.dropWhile (fun c => c ≠ '=')).tail)
  else none

/-- The argument-mode classification loop of `parse_command`
(`src/command_parser.rs` lines 44-75).  The Rust loop peeks at the next
token, so the match distinguishes whether one remains. -/
def parseArgs : List (List Char) → List CommandComponent
  | [] => []
  | [t] =>
    if startsWithDash t then
      match splitAtEq t with
      | some (f, v) => [.flag f, .value v]
      | none => [.flag t]
    else [.value t]
  | t :: v :: rest2 =>
    if startsWithDash t then
      match splitAtEq t with
      | some (f, va) => .flag f :: .value va :: parseArgs (v :: rest2)
      | none =>
        if startsWithDash v then .flag t :: parseArgs (v :: rest2)
        else .flag t :: .value v :: parseArgs rest2
    else .value t :: parseArgs (v :: rest2)

/-- Token classification of one segment: leading non-dash tokens become
`base`, then the argument loop takes over. -/
def classifyLine (tokens : List (List Char)) : List CommandComponent :=
  (tokens.takeWhile fun t => !startsWithDash t).map .base
    ++ parseArgs (tokens.dropWhile fun t => !startsWithDash t)

/-- Rust `str::split("\\\n")`: split on line-continuation markers. -/
def splitLC : List Char → List (List Char)
  | [] => [[]]
  | '\\' :: '\n' :: rest => [] :: splitLC rest
  | c :: rest =>
    match splitLC rest with
    | [] => [[c]]
    | l :: ls => (c :: l) :: ls

/-- Rust `str::trim`: strip Unicode whitespace from both ends. -/
def trimList (s : List Char) : List Char :=
  ((s.dropWhile rustIsWhitespace).reverse.dropWhile rustIsWhitespace).reverse

/-- The two fatal parse outcomes of session start. -/
inductive ParseErr : Type
  | parseError
  | emptyCommand
deriving DecidableEq

/-- The per-segment loop of `parse_command`: classify each trimmed segment,
adding a `lineBreak` after every segment but the last; a segment whose word
split fails aborts with `parseError`. -/
def parseLines : List (List Char) → Except ParseErr (List CommandComponent)
  | [] => .ok []
  | line :: rest =>
    if trimList line = [] then
      match parseLines rest with
      | .error e => .error e
      | .ok cs => .ok (if rest = [] then cs else .lineBreak :: cs)
    else
      match shlexSplit (trimList line) with
      | none => .error .parseError
      | some tokens =>
        if tokens = [] then
          match parseLines rest with
          | .error e => .error e
          | .ok cs => .ok (if rest = [] then cs else .lineBreak :: cs)
        else
          match parseLines rest with
          | .error e => .error e
          | .ok cs =>
            .ok (classifyLine tokens ++ (if rest = [] then cs else .lineBreak :: cs))

/-- `parse_command` from `src/command_parser.rs`. -/
def parse_command (s : List Char) : Except ParseErr (List CommandComponent) :=
  match parseLines (splitLC s) with
  | .error e => .error e
  | .ok cs => if cs = [] then .error .emptyCommand else .ok cs

/-- The per-segment loop of `Command::try_from` (`src/command.rs`): word
splitting only, components are plain tokens. -/
def tryFromLines : List (List Char) → Except ParseErr (List (List Char))
  | [] => .ok []
  | line :: rest =>
    if trimList line = [] then tryFromLines rest
    else
      match shlexSplit (trimList line) with
      | none => .error .parseError
      | some tokens =>
        match tryFromLines rest with
        | .error e => .error e
        | .ok ts => .ok (tokens ++ ts)

/-- `Command::try_from` from `src/command.rs`. -/
def tryFromCommand (s : List Char) : Except ParseErr (List (List Char)) :=
  match tryFromLines (splitLC s) with
  | .error e => .error e
  | .ok ts => if ts = [] then .error .emptyCommand else .ok ts

/-!
## Argument-mode classification (C3)
-/

theorem takeWhile_until_eq (pre suf : List Char) (hp : '=' ∉ pre) :
    (pre ++ '=' :: suf).takeWhile (fun c => c ≠ '=') = pre := by
  induction pre with
  | nil => simp
  | cons c cs ih =>
    have hc : c ≠ '=' := fun h => hp (h ▸ List.mem_cons_self c cs)
    have ih' := ih fun h => hp (List.mem_cons_of_mem _ h)
    simp only [List.cons_append, List.takeWhile_cons]
    simp only [ne_eq, decide_not] at ih' ⊢
    simp [hc, ih']

theorem dropWhile_until_eq (pre suf : List Char) (hp : '=' ∉ pre) :
    (pre ++ '=' :: suf).dropWhile (fun c => c ≠ '=') = '=' :: suf := by
  induction pre with
  | nil => simp
  | cons c cs ih =>
    have hc : c ≠ '=' := fun h => hp (h ▸ List.mem_cons_self c cs)
    have ih' := ih fun h => hp (List.mem_cons_of_mem _ h)
    simp only [List.cons_append, List.dropWhile_cons]
    simp only [ne_eq, decide_not] at ih' ⊢
    simp [hc, ih']

theorem splitAtEq_spec (pre suf : List Char) (hp : '=' ∉ pre) :
    splitAtEq (pre ++ '=' :: suf) = some (pre, suf) := by
  unfold splitAtEq
  rw [if_pos (by simp), takeWhile_until_eq pre suf hp, dropWhile_until_eq pre suf hp]
  rfl

theorem splitAtEq_none {t : List Char} (h : '=' ∉ t) : splitAtEq t = none := by
  simp [splitAtEq, h]

theorem parseArgs_nil : parseArgs [] = [] := by simp only [parseArgs]

theorem parseArgs_cons (t : List Char) (rest : List (List Char)) :
    parseArgs (t :: rest) =
      if startsWithDash t then
        match splitAtEq t with
        | some (f, v) => .flag f :: .value v :: parseArgs rest
        | none =>
          match rest with
          | [] => [.flag t]
          | v :: rest2 =>
            if startsWithDash v then .flag t :: parseArgs (v :: rest2)
            else .flag t :: .value v :: parseArgs rest2
      else .value t :: parseArgs rest := by
  cases rest with
  | nil => simp only [parseArgs]
  | cons v rest2 => simp only [parseArgs]

/-- C3 (amended): in argument mode, a token starting with `-` that contains
`=` is split at the first `=` into a flag and a value; a dash token without
`=` followed by a non-dash token consumes both as a flag/value pair; a dash
token without `=` and without a following non-dash token is a standalone
boolean flag; and a token not starting with `-` — even one containing `=` —
is a standalone positional value. -/
theorem parse_args_classification_amended (t : List Char) (rest : List (List Char)) :
    (∀ pre suf, startsWithDash t = true → '=' ∉ pre → t = pre ++ '=' :: suf →
      parseArgs (t :: rest)
        = .flag pre :: .value suf :: parseArgs rest) ∧
    (∀ v rest2, startsWithDash t = true → '=' ∉ t → rest = v :: rest2 →
      ¬ startsWithDash v = true →
      parseArgs (t :: rest) = .flag t :: .value v :: parseArgs rest2) ∧
    (startsWithDash t = true → '=' ∉ t →
      (rest = [] ∨ ∃ v rest2, rest = v :: rest2 ∧ startsWithDash v = true) →
      parseArgs (t :: rest) = .flag t :: parseArgs rest) ∧
    (¬ startsWithDash t = true →
      parseArgs (t :: rest) = .value t :: parseArgs rest) := by
  refine ⟨?_, ?_, ?_, ?_⟩
  · intro pre suf hd hp ht
    subst ht
    rw [parseArgs_cons, if_pos hd, splitAtEq_spec pre suf hp]
  · intro v rest2 hd hne hr hv
    subst hr
    rw [parseArgs_cons, if_pos hd, splitAtEq_none hne]
    simp [hv]
  · intro hd hne hr
    rcases hr with rfl | ⟨v, rest2, rfl, hv⟩
    · rw [parseArgs_cons, if_pos hd, splitAtEq_none hne]
      simp [parseArgs_nil]
    · rw [parseArgs_cons, if_pos hd, splitAtEq_none hne]
      simp [hv]
  · intro hd
    rw [parseArgs_cons, if_neg hd]

/-- C3 counterexample: in argument mode a token containing `=` but not
starting with `-` is *not* split at the `=`; it is kept whole as a
positional value (the crate's own test
`test_parse_simple_command` asserts this for `app=asset`). -/
theorem parse_args_eq_positional_cex :
    parseArgs [['a', '=', 'b']] = [CommandComponent.value ['a', '=', 'b']] ∧
    parseArgs [['a', '=', 'b']]
      ≠ [CommandComponent.flag ['a'], CommandComponent.value ['b']] := by
  constructor
  · rw [parseArgs_cons, if_neg (by decide), parseArgs_nil]
  · rw [parseArgs_cons, if_neg (by decide), parseArgs_nil]
    decide

/-- Witness for `parse_args_classification_amended` at a concrete input. -/
theorem parse_args_classification_witness :
    parseArgs [['-', 'n'], ['x']]
      = CommandComponent.flag ['-', 'n'] :: CommandComponent.value ['x']
          :: parseArgs [] :=
  (parse_args_classification_amended ['-', 'n'] [['x']]).2.1 ['x'] []
    (by decide) (by decide) rfl (by decide)

/-!
## The empty-command error (C7)
-/

theorem parseLines_error_eq :
    ∀ (ls : List (List Char)) (e : ParseErr),
      parseLines ls = .error e → e = ParseErr.parseError := by
  intro ls
  induction ls with
  | nil => intro e h; simp [parseLines] at h
  | cons line rest ih =>
    intro e h
    rw [parseLines] at h
    split at h
    · split at h
      · cases h
        exact ih _ (by assumption)
      · cases h
    · split at h
      · cases h
        rfl
      · split at h
        · split at h
          · cases h
            exact ih _ (by assumption)
          · cases h
        · split at h
          · cases h
            exact ih _ (by assumption)
          · cases h

theorem tryFromLines_error_eq :
    ∀ (ls : List (List Char)) (e : ParseErr),
      tryFromLines ls = .error e → e = ParseErr.parseError := by
  intro ls
  induction ls with
  | nil => intro e h; simp [tryFromLines] at h
  | cons line rest ih =>
    intro e h
    rw [tryFromLines] at h
    split at h
    · exact ih _ h
    · split at h
      · cases h
        rfl
      · split at h
        · cases h
          exact ih _ (by assumption)
        · cases h

/-- C7: parsing fails with `emptyCommand` exactly when tokenization and
classification produce zero components; when at least one component results
the parse succeeds with exactly those components; and a parse never returns
an empty component list.  The same zero-component guard holds for
`Command::try_from`. -/
theorem empty_command_error_iff (s : List Char) :
    (parse_command s = .error .emptyCommand ↔ parseLines (splitLC s) = .ok []) ∧
    (∀ cs, parseLines (splitLC s) = .ok cs → cs ≠ [] → parse_command s = .ok cs) ∧
    parse_command s ≠ .ok [] ∧
    tryFromCommand s ≠ .ok [] ∧
    (tryFromLines (splitLC s) = .ok [] → tryFromCommand s = .error .emptyCommand) := by
  refine ⟨?_, ?_, ?_, ?_, ?_⟩
  · constructor
    · intro h
      unfold parse_command at h
      cases hp : parseLines (splitLC s) with
      | error e =>
        rw [hp] at h
        have h2 : (Except.error e : Except ParseErr (List CommandComponent))
            = Except.error ParseErr.emptyCommand := h
        cases h2
        exact absurd (parseLines_error_eq _ _ hp) (by decide)
      | ok cs =>
        rw [hp] at h
        have h2 : (if cs = [] then Except.error ParseErr.emptyCommand else Except.ok cs)
            = .error .emptyCommand := h
        by_cases hc : cs = []
        · rw [hc]
        · rw [if_neg hc] at h2
          cases h2
    · intro h
      unfold parse_command
      rw [h]
      rfl
  · intro cs hp hne
    unfold parse_command
    rw [hp]
    have : (if cs = [] then Except.error ParseErr.emptyCommand else Except.ok cs)
        = Except.ok cs := if_neg hne
    exact this
  · intro h
    unfold parse_command at h
    cases hp : parseLines (splitLC s) with
    | error e =>
      rw [hp] at h
      have h2 : (Except.error e : Except ParseErr (List CommandComponent))
          = Except.ok [] := h
      cases h2
    | ok cs =>
      rw [hp] at h
      have h2 : (if cs = [] then Except.error ParseErr.emptyCommand else Except.ok cs)
          = .ok [] := h
      by_cases hc : cs = []
      · rw [if_pos hc] at h2
        cases h2
      · rw [if_neg hc] at h2
        cases h2
        exact hc rfl
  · intro h
    unfold tryFromCommand at h
    cases hp : tryFromLines (splitLC s) with
    | error e =>
      rw [hp] at h
      have h2 : (Except.error e : Except ParseErr (List (List Char)))
          = Except.ok [] := h
      cases h2
    | ok ts =>
      rw [hp] at h
      have h2 : (if ts = [] then Except.error ParseErr.emptyCommand else Except.ok ts)
          = .ok [] := h
      by_cases hc : ts = []
      · rw [if_pos hc] at h2
        cases h2
      · rw [if_neg hc] at h2
        cases h2
        exact hc rfl
  · intro h
    unfold tryFromCommand
    rw [h]
    rfl

/-- Witness for `empty_command_error_iff` at a concrete input: a blank
command string classifies to zero components and fails with
`emptyCommand`. -/
theorem empty_command_error_witness :
    parse_command [' '] = .error .emptyCommand :=
  (empty_command_error_iff [' ']).1.mpr rfl

/-!
## The wrap editor (`src/wrap_text.rs`)

The display width comes from the external `unicode-width` crate.  Modelled
from the spec: wide (East Asian) characters count 2 columns and every other
character (including those of undefined width) counts 1 — this is the
crate's `width(ch).unwrap_or(1)` as used at every call site.  The wrap and
cursor lemmas are proved for an arbitrary width function; the table below
instantiates them on the concrete test vectors.
-/

/-- Display width of one character,
`UnicodeWidthChar::width(ch).unwrap_or(1)`. -/
def rustCharWidth (c : Char) : Nat :=
  if (0x1100 ≤ c.val ∧ c.val ≤ 0x115F) ∨ (0x2E80 ≤ c.val ∧ c.val ≤ 0xA4CF) ∨
     (0xAC00 ≤ c.val ∧ c.val ≤ 0xD7A3) ∨ (0xF900 ≤ c.val ∧ c.val ≤ 0xFAFF) ∨
     (0xFE30 ≤ c.val ∧ c.val ≤ 0xFE4F) ∨ (0xFF00 ≤ c.val ∧ c.val ≤ 0xFF60) ∨
     (0xFFE0 ≤ c.val ∧ c.val ≤ 0xFFE6) ∨ (0x20000 ≤ c.val ∧ c.val ≤ 0x2FFFD) ∨
     (0x30000 ≤ c.val ∧ c.val ≤ 0x3FFFD)
  then 2 else 1

theorem rustCharWidth_pos (c : Char) : 1 ≤ rustCharWidth c := by
  unfold rustCharWidth
  split <;> omega

/-- One wrapped line: content plus its byte range into the source text. -/
structure WrapTextLine where
  content : List Char
  start_index : Nat
  end_index : Nat
deriving DecidableEq

/-- Sum of display widths of a string. -/
def widthSum (cw : Char → Nat) : List Char → Nat
  | [] => 0
  | c :: cs => cw c + widthSum cw cs

theorem widthSum_append (cw : Char → Nat) (a b : List Char) :
    widthSum cw (a ++ b) = widthSum cw a + widthSum cw b := by
  induction a with
  | nil => simp [widthSum]
  | cons c cs ih => simp [widthSum, ih]; omega

/-- The character loop of `wrap_text`, carrying the accumulated lines, the
current line, its display width, its starting byte index and the current
byte index. -/
def wrapGo (cw : Char → Nat) (width : Nat) :
    List Char → List WrapTextLine → List Char → Nat → Nat → Nat → List WrapTextLine
  | [], lines, cur, _curW, lineStart, curIdx =>
    if cur ≠ [] ∨ lines = [] then lines ++ [⟨cur, lineStart, curIdx⟩] else lines
  | ch :: rest, lines, cur, curW, lineStart, curIdx =>
    if ch = '\n' then
      wrapGo cw width rest (lines ++ [⟨cur, lineStart, curIdx⟩]) [] 0
        (curIdx + ch.utf8Size) (curIdx + ch.utf8Size)
    else
      if curW + cw ch > width ∧ cur ≠ [] then
        wrapGo cw width rest (lines ++ [⟨cur, lineStart, curIdx⟩]) [ch] (cw ch)
          curIdx (curIdx + ch.utf8Size)
      else
        wrapGo cw width rest lines (cur ++ [ch]) (curW + cw ch)
          lineStart (curIdx + ch.utf8Size)

/-- `wrap_text` from `src/wrap_text.rs`. -/
def wrapText (cw : Char → Nat) (text : List Char) (width : Nat) : List WrapTextLine :=
  if width = 0 then [⟨text, 0, utf8Len text⟩]
  else wrapGo cw width text [] [] 0 0 0

/-- Rust `&line.content[..byte_offset]`: the longest prefix of the string
whose byte length is at most `n`; it is the exact slice whenever `n` is a
character boundary, which is the only case the code reaches (Rust slicing
would panic otherwise). -/
def takeBytes : Nat → List Char → List Char
  | _, [] => []
  | n, c :: cs => if c.utf8Size ≤ n then c :: takeBytes (n - c.utf8Size) cs else []

/-- The scanning loop of `index_at_position`: the byte offset at which the
accumulated display width first reaches the target column. -/
def walkCol (cw : Char → Nat) : List Char → Nat → Nat → Nat
  | [], _, _ => 0
  | c :: cs, cur, target =>
    if cur ≥ target then 0
    else c.utf8Size + walkCol cw cs (cur + cw c) target

/-- The line-scanning loop of `position`, carrying the line number. -/
def posGo (cw : Char → Nat) (i : Nat) : List WrapTextLine → Nat → Nat × Nat
  | [], n => (0, n)
  | ⟨content, s, e⟩ :: ls, n =>
    if s ≤ i ∧ i ≤ e then (widthSum cw (takeBytes (i - s) content), n)
    else posGo cw i ls (n + 1)

/-- The `WrapText` buffer: line table, content and width. -/
structure WrapText where
  lines : List WrapTextLine
  content : List Char
  width : Nat

/-- `WrapText::new`. -/
def WrapText.new (cw : Char → Nat) (text : List Char) (width : Nat) : WrapText :=
  ⟨wrapText cw text width, text, width⟩

/-- `WrapText::position`. -/
def WrapText.position (cw : Char → Nat) (w : WrapText) (index : Nat) : Nat × Nat :=
  posGo cw index w.lines 0

/-- `WrapText::index_at_position`: out-of-range rows return the byte length
of the whole content. -/
def WrapText.index_at_position (cw : Char → Nat) (w : WrapText) (p : Nat × Nat) : Nat :=
  match w.lines[p.2]? with
  | none => utf8Len w.content
  | some l => l.start_index + walkCol cw l.content 0 p.1

/-- A byte index lying on a UTF-8 character boundary of `t` (0 and the byte
length of `t` included). -/
def IsBoundary (t : List Char) (i : Nat) : Prop :=
  ∃ pre suf, t = pre ++ suf ∧ utf8Len pre = i

/-- Decomposition relation: the wrapped lines cover the text starting at a
given byte position; consecutive lines are separated by one consumed `'\n'`
(hard break) or by nothing (soft wrap); a trailing `'\n'` leaves no further
line. -/
inductive Decomp : List Char → Nat → List WrapTextLine → Prop
  | nil (pos : Nat) : Decomp [] pos []
  | last (content : List Char) (pos : Nat) (h : '\n' ∉ content) :
      Decomp content pos [⟨content, pos, pos + utf8Len content⟩]
  | hard (content rest : List Char) (pos : Nat) (ls : List WrapTextLine)
      (h : '\n' ∉ content)
      (hd : Decomp rest (pos + utf8Len content + 1) ls) :
      Decomp (content ++ '\n' :: rest) pos
        (⟨content, pos, pos + utf8Len content⟩ :: ls)
  | soft (content rest : List Char) (pos : Nat) (ls : List WrapTextLine)
      (h : '\n' ∉ content) (hr : rest ≠ [])
      (hd : Decomp rest (pos + utf8Len content) ls) :
      Decomp (content ++ rest) pos
        (⟨content, pos, pos + utf8Len content⟩ :: ls)

theorem wrapGo_decomp (cw : Char → Nat) (width : Nat) :
    ∀ (text : List Char) (lines : List WrapTextLine) (cur : List Char)
      (curW lineStart curIdx : Nat),
      '\n' ∉ cur → curIdx = lineStart + utf8Len cur →
      ∃ D, wrapGo cw width text lines cur curW lineStart curIdx = lines ++ D ∧
        Decomp (cur ++ text) lineStart D ∧ (D = [] → lines ≠ []) := by
  intro text
  induction text with
  | nil =>
    intro lines cur curW lineStart curIdx hnl hidx
    rw [wrapGo]
    by_cases hc : cur ≠ [] ∨ lines = []
    · rw [if_pos hc]
      subst hidx
      exact ⟨[⟨cur, lineStart, lineStart + utf8Len cur⟩], rfl,
        by simpa using Decomp.last cur lineStart hnl, by simp⟩
    · rw [if_neg hc]
      push_neg at hc
      refine ⟨[], by simp, ?_, fun _ => hc.2⟩
      rw [hc.1]
      exact Decomp.nil lineStart
  | cons ch rest ih =>
    intro lines cur curW lineStart curIdx hnl hidx
    rw [wrapGo]
    by_cases hch : ch = '\n'
    · rw [if_pos hch]
      have hsz : ch.utf8Size = 1 := by rw [hch]; rfl
      obtain ⟨D, hD, hdec, hne⟩ := ih (lines ++ [⟨cur, lineStart, curIdx⟩])
        [] 0 (curIdx + ch.utf8Size) (curIdx + ch.utf8Size) (by simp) (by simp)
      refine ⟨⟨cur, lineStart, curIdx⟩ :: D, ?_, ?_, by simp⟩
      · rw [hD, List.append_assoc]
        rfl
      · have hpos : curIdx + ch.utf8Size = lineStart + utf8Len cur + 1 := by
          omega
        rw [hpos] at hdec
        subst hch hidx
        simpa using Decomp.hard cur rest lineStart D hnl (by simpa using hdec)
    · rw [if_neg hch]
      by_cases hbr : curW + cw ch > width ∧ cur ≠ []
      · rw [if_pos hbr]
        obtain ⟨D, hD, hdec, hne⟩ := ih (lines ++ [⟨cur, lineStart, curIdx⟩])
          [ch] (cw ch) curIdx (curIdx + ch.utf8Size)
          (by simp only [List.mem_singleton]; exact fun h => hch h.symm) (by simp)
        refine ⟨⟨cur, lineStart, curIdx⟩ :: D, ?_, ?_, by simp⟩
        · rw [hD, List.append_assoc]
          rfl
        · subst hidx
          exact Decomp.soft cur (ch :: rest) lineStart D hnl (by simp)
            (by simpa using hdec)
      · rw [if_neg hbr]
        obtain ⟨D, hD, hdec, hne⟩ := ih lines (cur ++ [ch]) (curW + cw ch) lineStart
          (curIdx + ch.utf8Size)
          (by
            simp only [List.mem_append, List.mem_singleton]
            rintro (h | h)
            exacts [hnl h, hch h.symm])
          (by rw [utf8Len_append]; simp only [utf8Len_cons, utf8Len_nil]; omega)
        refine ⟨D, hD, ?_, hne⟩
        rw [List.append_assoc] at hdec
        simpa using hdec

/-- `wrap_text` at a positive width produces a nonempty decomposition of the
text starting at byte 0. -/
theorem wrapText_decomp (cw : Char → Nat) (text : List Char) (width : Nat)
    (h : width ≠ 0) :
    Decomp text 0 (wrapText cw text width) ∧ wrapText cw text width ≠ [] := by
  obtain ⟨D, hD, hdec, hne⟩ := wrapGo_decomp cw width text [] [] 0 0 0 (by simp) (by simp)
  have hD' : wrapText cw text width = D := by
    rw [wrapText, if_neg h]
    simpa using hD
  rw [hD']
  constructor
  · simpa using hdec
  · intro hnil
    exact (hne hnil) rfl

theorem utf8Size_newline : ('\n').utf8Size = 1 := rfl

theorem Decomp.head_start {t : List Char} {pos : Nat} {l : WrapTextLine}
    {ls : List WrapTextLine} (h : Decomp t pos (l :: ls)) : l.start_index = pos := by
  cases h <;> rfl

theorem Decomp.line_facts {t : List Char} {pos : Nat} {D : List WrapTextLine}
    (h : Decomp t pos D) :
    ∀ l ∈ D, l.end_index = l.start_index + utf8Len l.content ∧ '\n' ∉ l.content ∧
      ∃ pre suf, t = pre ++ l.content ++ suf ∧ pos + utf8Len pre = l.start_index := by
  induction h with
  | nil pos => intro l hl; cases hl
  | last content pos h =>
    intro l hl
    rcases List.mem_singleton.mp hl with rfl
    exact ⟨rfl, h, [], [], by simp, by simp⟩
  | hard content rest pos ls h hd ih =>
    intro l hl
    rcases List.mem_cons.mp hl with rfl | hl
    · exact ⟨rfl, h, [], '\n' :: rest, by simp, by simp⟩
    · obtain ⟨he, hn, pre, suf, ht, hs⟩ := ih l hl
      refine ⟨he, hn, content ++ '\n' :: pre, suf, by simp [ht], ?_⟩
      rw [utf8Len_append, utf8Len_cons, utf8Size_newline]
      omega
  | soft content rest pos ls h hr hd ih =>
    intro l hl
    rcases List.mem_cons.mp hl with rfl | hl
    · exact ⟨rfl, h, [], rest, by simp, by simp⟩
    · obtain ⟨he, hn, pre, suf, ht, hs⟩ := ih l hl
      refine ⟨he, hn, content ++ pre, suf, by simp [ht], ?_⟩
      rw [utf8Len_append]
      omega

theorem Decomp.chain {t : List Char} {pos : Nat} {D : List WrapTextLine}
    (h : Decomp t pos D) :
    List.Chain' (fun l1 l2 =>
      l2.start_index = l1.end_index ∨
        (l2.start_index = l1.end_index + 1 ∧
          ∃ pre suf, t = pre ++ '\n' :: suf ∧ pos + utf8Len pre = l1.end_index)) D := by
  induction h with
  | nil pos => simp
  | last content pos h => simp
  | hard content rest pos ls h hd ih =>
    refine List.chain'_cons'.mpr ⟨?_, ?_⟩
    · intro l2 hl2
      cases ls with
      | nil => cases hl2
      | cons l2' tl =>
        obtain rfl : l2' = l2 := by simpa using hl2
        refine Or.inr ⟨?_, content, rest, rfl, rfl⟩
        rw [hd.head_start]
    · refine List.Chain'.imp ?_ ih
      intro a b hab
      rcases hab with hab | ⟨hab, pre, suf, hts, hlen⟩
      · exact Or.inl hab
      · refine Or.inr ⟨hab, content ++ '\n' :: pre, suf, by simp [hts], ?_⟩
        rw [utf8Len_append, utf8Len_cons, utf8Size_newline]
        omega
  | soft content rest pos ls h hr hd ih =>
    refine List.chain'_cons'.mpr ⟨?_, ?_⟩
    · intro l2 hl2
      cases ls with
      | nil => cases hl2
      | cons l2' tl =>
        obtain rfl : l2' = l2 := by simpa using hl2
        exact Or.inl (by rw [hd.head_start])
    · refine List.Chain'.imp ?_ ih
      intro a b hab
      rcases hab with hab | ⟨hab, pre, suf, hts, hlen⟩
      · exact Or.inl hab
      · refine Or.inr ⟨hab, content ++ pre, suf, by simp [hts], ?_⟩
        rw [utf8Len_append]
        omega

theorem filter_of_no_newline {content : List Char} (h : '\n' ∉ content) :
    content.filter (fun c => c ≠ '\n') = content := by
  induction content with
  | nil => rfl
  | cons c cs ih =>
    have hc : c ≠ '\n' := fun he => h (he ▸ List.mem_cons_self c cs)
    simp only [List.filter_cons]
    rw [if_pos (by simp [hc]), ih fun hm => h (List.mem_cons_of_mem _ hm)]

theorem filter_cons_newline (rest : List Char) :
    ('\n' :: rest).filter (fun c => c ≠ '\n') = rest.filter (fun c => c ≠ '\n') := by
  simp only [List.filter_cons]
  rw [if_neg (by simp)]

theorem Decomp.join_eq {t : List Char} {pos : Nat} {D : List WrapTextLine}
    (h : Decomp t pos D) :
    (D.map (fun l => l.content)).flatten = t.filter (fun c => c ≠ '\n') := by
  induction h with
  | nil pos => simp
  | last content pos h =>
    simp only [List.map_cons, List.map_nil, List.flatten_cons, List.flatten_nil,
      List.append_nil]
    rw [filter_of_no_newline h]
  | hard content rest pos ls h hd ih =>
    simp only [List.map_cons, List.flatten_cons]
    rw [List.filter_append, filter_cons_newline, filter_of_no_newline h, ih]
  | soft content rest pos ls h hr hd ih =>
    simp only [List.map_cons, List.flatten_cons]
    rw [List.filter_append, filter_of_no_newline h, ih]

theorem wrapGo_fits (cw : Char → Nat) (width : Nat) :
    ∀ (text : List Char) (lines : List WrapTextLine) (cur : List Char)
      (curW lineStart curIdx : Nat),
      curW = widthSum cw cur →
      (widthSum cw cur ≤ width ∨ cur.length = 1) →
      (∀ l ∈ lines, widthSum cw l.content ≤ width ∨ l.content.length = 1) →
      ∀ l ∈ wrapGo cw width text lines cur curW lineStart curIdx,
        widthSum cw l.content ≤ width ∨ l.content.length = 1 := by
  intro text
  induction text with
  | nil =>
    intro lines cur curW lineStart curIdx hW hcur hlines l hl
    rw [wrapGo] at hl
    by_cases hc : cur ≠ [] ∨ lines = []
    · rw [if_pos hc] at hl
      rcases List.mem_append.mp hl with hl | hl
      · exact hlines l hl
      · rcases List.mem_singleton.mp hl with rfl
        exact hcur
    · rw [if_neg hc] at hl
      exact hlines l hl
  | cons ch rest ih =>
    intro lines cur curW lineStart curIdx hW hcur hlines l hl
    rw [wrapGo] at hl
    by_cases hch : ch = '\n'
    · rw [if_pos hch] at hl
      refine ih _ _ _ _ _ rfl (Or.inl (by simp [widthSum])) ?_ l hl
      intro l' hl'
      rcases List.mem_append.mp hl' with hl' | hl'
      · exact hlines l' hl'
      · rcases List.mem_singleton.mp hl' with rfl
        exact hcur
    · rw [if_neg hch] at hl
      by_cases hbr : curW + cw ch > width ∧ cur ≠ []
      · rw [if_pos hbr] at hl
        refine ih _ _ _ _ _ (by simp [widthSum]) (Or.inr (by simp)) ?_ l hl
        intro l' hl'
        rcases List.mem_append.mp hl' with hl' | hl'
        · exact hlines l' hl'
        · rcases List.mem_singleton.mp hl' with rfl
          exact hcur
      · rw [if_neg hbr] at hl
        push_neg at hbr
        refine ih _ _ _ _ _ (by rw [hW, widthSum_append]; simp [widthSum]) ?_ hlines l hl
        by_cases hce : cur = []
        · subst hce
          exact Or.inr (by simp)
        · have hle : curW + cw ch ≤ width :=
            Nat.le_of_not_lt fun hgt => hce (hbr hgt)
          have hws : widthSum cw (cur ++ [ch]) = curW + cw ch := by
            rw [hW, widthSum_append]
            simp [widthSum]
          exact Or.inl (hws ▸ hle)

/-- C10 (amended): for every width function, text, and *positive* width,
every wrapped line's byte range is exact (`end = start + byte length of the
content`, the content is the corresponding slice of the text), the first
line starts at byte 0, consecutive lines are separated by zero bytes or by
exactly one consumed `'\n'` byte, and the concatenated contents equal the
text with every `'\n'` removed.  (At width 0 the single returned line keeps
its `'\n'` characters, so the claim as stated fails there.) -/
theorem wrap_lines_invariant_amended (cw : Char → Nat) (text : List Char)
    (width : Nat) (h : 1 ≤ width) :
    wrapText cw text width ≠ [] ∧
    (∀ l, (wrapText cw text width).head? = some l → l.start_index = 0) ∧
    (∀ l ∈ wrapText cw text width,
      l.start_index ≤ l.end_index ∧
      l.end_index = l.start_index + utf8Len l.content ∧
      ∃ pre suf, text = pre ++ l.content ++ suf ∧ utf8Len pre = l.start_index) ∧
    List.Chain' (fun l1 l2 =>
      l2.start_index = l1.end_index ∨
        (l2.start_index = l1.end_index + 1 ∧
          ∃ pre suf, text = pre ++ '\n' :: suf ∧ utf8Len pre = l1.end_index))
      (wrapText cw text width) ∧
    ((wrapText cw text width).map (fun l => l.content)).flatten
      = text.filter (fun c => c ≠ '\n') := by
  obtain ⟨hdec, hne⟩ := wrapText_decomp cw text width (by omega)
  refine ⟨hne, ?_, ?_, ?_, ?_⟩
  · intro l hl
    cases hD : wrapText cw text width with
    | nil => rw [hD] at hl; cases hl
    | cons l0 ls =>
      rw [hD] at hl hdec
      obtain rfl : l0 = l := by simpa using hl
      exact hdec.head_start
  · intro l hl
    obtain ⟨he, hn, pre, suf, ht, hs⟩ := hdec.line_facts l hl
    exact ⟨by omega, he, pre, suf, ht, by omega⟩
  · refine List.Chain'.imp ?_ hdec.chain
    intro a b hab
    rcases hab with hab | ⟨hab, pre, suf, hts, hlen⟩
    · exact Or.inl hab
    · exact Or.inr ⟨hab, pre, suf, hts, by omega⟩
  · exact hdec.join_eq

/-- C10 counterexample: at width 0, the concatenation of line contents
retains the `'\n'`, so it is not the text with newlines removed. -/
theorem wrap_lines_width_zero_cex :
    ((wrapText rustCharWidth ['a', '\n', 'b'] 0).map (fun l => l.content)).flatten
      ≠ (['a', '\n', 'b'].filter (fun c => c ≠ '\n')) := by decide

/-- Witness for `wrap_lines_invariant_amended` at a concrete input. -/
theorem wrap_lines_invariant_witness :
    ((wrapText rustCharWidth ['a', '\n', 'b'] 5).map (fun l => l.content)).flatten
      = (['a', '\n', 'b'].filter (fun c => c ≠ '\n')) :=
  (wrap_lines_invariant_amended rustCharWidth ['a', '\n', 'b'] 5 (by decide)).2.2.2.2

/-- C5: wrapping rules — width 0 degenerates to one unbroken line covering
the whole text; at positive widths an explicit `'\n'` never appears inside
any line's content (it is consumed by the break), and every line either
fits within the width or is a single (oversized) character; together with
the claim's concrete packing examples, including a single wide character at
width 1 and a hard newline break. -/
theorem wrap_text_rules :
    (∀ (cw : Char → Nat) (text : List Char),
      wrapText cw text 0 = [⟨text, 0, utf8Len text⟩]) ∧
    (∀ (cw : Char → Nat) (text : List Char) (width : Nat), 1 ≤ width →
      ∀ l ∈ wrapText cw text width, '\n' ∉ l.content) ∧
    (∀ (cw : Char → Nat) (text : List Char) (width : Nat), 1 ≤ width →
      ∀ l ∈ wrapText cw text width,
        widthSum cw l.content ≤ width ∨ l.content.length = 1) ∧
    ((wrapText rustCharWidth "hello world".toList 6).map (fun l => l.content)
        = ["hello ".toList, "world".toList]) ∧
    ((wrapText rustCharWidth "abcdefghij".toList 5).map (fun l => l.content)
        = ["abcde".toList, "fghij".toList]) ∧
    ((wrapText rustCharWidth "你好世界".toList 4).map (fun l => l.content)
        = ["你好".toList, "世界".toList]) ∧
    ((wrapText rustCharWidth "你".toList 1).map (fun l => l.content)
        = ["你".toList]) ∧
    ((wrapText rustCharWidth "hello\nworld".toList 20).map (fun l => l.content)
        = ["hello".toList, "world".toList]) := by
  refine ⟨?_, ?_, ?_, by decide, by decide, by decide, by decide, by decide⟩
  · intro cw text
    simp [wrapText]
  · intro cw text width hw l hl
    obtain ⟨hdec, -⟩ := wrapText_decomp cw text width (by omega)
    exact (hdec.line_facts l hl).2.1
  · intro cw text width hw l hl
    rw [wrapText, if_neg (by omega)] at hl
    exact wrapGo_fits cw width text [] [] 0 0 0 (by simp [widthSum])
      (Or.inl (by simp [widthSum])) (by intro l' hl'; cases hl') l hl

/-- Witness for `wrap_text_rules` at a concrete input. -/
theorem wrap_text_rules_witness :
    '\n' ∉ (WrapTextLine.mk ['a'] 0 1).content :=
  wrap_text_rules.2.1 rustCharWidth ['a', '\n', 'b'] 5 (by decide)
    ⟨['a'], 0, 1⟩ (by decide)

/-!
## The cursor-mapping round trip (C6)
-/

theorem takeBytes_exact : ∀ (pre suf : List Char),
    takeBytes (utf8Len pre) (pre ++ suf) = pre := by
  intro pre
  induction pre with
  | nil =>
    intro suf
    cases suf with
    | nil => rfl
    | cons c cs =>
      simp only [utf8Len_nil, List.nil_append]
      rw [takeBytes, if_neg]
      have := Char.utf8Size_pos c
      omega
  | cons c cp ih =>
    intro suf
    simp only [List.cons_append, utf8Len_cons]
    rw [takeBytes, if_pos (by omega)]
    rw [Nat.add_sub_cancel_left, ih]

theorem walkCol_exact (cw : Char → Nat) (hcw : ∀ c, 1 ≤ cw c) :
    ∀ (pre suf : List Char) (cur : Nat),
      walkCol cw (pre ++ suf) cur (cur + widthSum cw pre) = utf8Len pre := by
  intro pre
  induction pre with
  | nil =>
    intro suf cur
    cases suf with
    | nil => rfl
    | cons c cs =>
      rw [List.nil_append, walkCol, if_pos (by simp [widthSum])]
      rfl
  | cons c cp ih =>
    intro suf cur
    simp only [List.cons_append, widthSum]
    rw [walkCol, if_neg (by have := hcw c; omega)]
    have harr : cur + (cw c + widthSum cw cp) = (cur + cw c) + widthSum cw cp := by
      omega
    rw [harr, ih suf (cur + cw c)]
    rfl

theorem boundary_split_le {pre suf content rest : List Char}
    (h : pre ++ suf = content ++ rest) (hle : utf8Len pre ≤ utf8Len content) :
    ∃ d, content = pre ++ d ∧ suf = d ++ rest := by
  rcases List.append_eq_append_iff.mp h with ⟨d, hc, hs⟩ | ⟨d, hp, hr⟩
  · exact ⟨d, hc, hs⟩
  · have hlen : utf8Len pre = utf8Len content + utf8Len d := by
      rw [hp, utf8Len_append]
    have hd0 : utf8Len d = 0 := by omega
    have hd : d = [] := utf8Len_eq_zero hd0
    subst hd
    refine ⟨[], by simpa using hp.symm, ?_⟩
    simpa using hr.symm

theorem boundary_split_gt {pre suf content rest : List Char}
    (h : pre ++ suf = content ++ rest) (hgt : utf8Len content < utf8Len pre) :
    ∃ d, pre = content ++ d ∧ rest = d ++ suf := by
  rcases List.append_eq_append_iff.mp h with ⟨d, hc, hs⟩ | ⟨d, hp, hr⟩
  · exfalso
    have : utf8Len content = utf8Len pre + utf8Len d := by
      rw [hc, utf8Len_append]
    omega
  · exact ⟨d, hp, hr⟩

theorem decomp_scan (cw : Char → Nat) (hcw : ∀ c, 1 ≤ cw c) :
    ∀ {t : List Char} {pos : Nat} {D : List WrapTextLine}, Decomp t pos D →
    ∀ (pre suf : List Char), t = pre ++ suf → ∀ (n : Nat),
      (∃ k l, posGo cw (pos + utf8Len pre) D n
            = (widthSum cw
                (takeBytes (pos + utf8Len pre - l.start_index) l.content), n + k)
          ∧ D[k]? = some l
          ∧ l.start_index + walkCol cw l.content 0
              (widthSum cw
                (takeBytes (pos + utf8Len pre - l.start_index) l.content))
              = pos + utf8Len pre)
      ∨ (posGo cw (pos + utf8Len pre) D n = (0, n + D.length) ∧ suf = []) := by
  intro t pos D hdec
  induction hdec with
  | nil pos =>
    intro pre suf ht n
    have hpre : pre = [] := by
      cases pre with
      | nil => rfl
      | cons c cs => cases ht
    subst hpre
    right
    refine ⟨?_, by simpa using ht.symm⟩
    simp [posGo]
  | last content pos h =>
    intro pre suf ht n
    left
    have hcov : pos ≤ pos + utf8Len pre ∧
        pos + utf8Len pre ≤ pos + utf8Len content := by
      constructor
      · omega
      · rw [ht, utf8Len_append]; omega
    refine ⟨0, ⟨content, pos, pos + utf8Len content⟩, ?_, by simp, ?_⟩
    · rw [posGo, if_pos hcov]
      simp
    · have hsub : pos + utf8Len pre - pos = utf8Len pre := by omega
      simp only [hsub]
      rw [ht, takeBytes_exact]
      have := walkCol_exact cw hcw pre suf 0
      rw [Nat.zero_add] at this
      rw [this]
  | hard content rest pos ls h hd ih =>
    intro pre suf ht n
    by_cases hle : utf8Len pre ≤ utf8Len content
    · left
      obtain ⟨d, hcd, hsd⟩ := boundary_split_le ht.symm hle
      have hcov : pos ≤ pos + utf8Len pre ∧
          pos + utf8Len pre ≤ pos + utf8Len content := by omega
      refine ⟨0, ⟨content, pos, pos + utf8Len content⟩, ?_, by simp, ?_⟩
      · rw [posGo, if_pos hcov]
        simp
      · have hsub : pos + utf8Len pre - pos = utf8Len pre := by omega
        simp only [hsub]
        rw [hcd, takeBytes_exact]
        have := walkCol_exact cw hcw pre d 0
        rw [Nat.zero_add] at this
        rw [this]
    · push_neg at hle
      obtain ⟨d, hpd, hrd⟩ := boundary_split_gt ht.symm hle
      cases d with
      | nil =>
        exfalso
        rw [hpd] at hle
        simp at hle
      | cons c d2 =>
        obtain ⟨hc, hrest⟩ : '\n' = c ∧ rest = d2 ++ suf := by
          have h2 := hrd
          simp only [List.cons_append, List.cons.injEq] at h2
          exact h2
        subst hc
        have hi : pos + utf8Len pre = (pos + utf8Len content + 1) + utf8Len d2 := by
          rw [hpd, utf8Len_append, utf8Len_cons, utf8Size_newline]
          omega
        have hnc : ¬ (pos ≤ pos + utf8Len pre ∧
            pos + utf8Len pre ≤ pos + utf8Len content) := by
          intro hcov
          omega
        rw [posGo, if_neg hnc, hi]
        rcases ih d2 suf hrest (n + 1) with ⟨k, l, hp, hk, hw⟩ | ⟨hp, hs⟩
        · left
          refine ⟨k + 1, l, ?_, by simpa using hk, hw⟩
          rw [hp]
          have : n + 1 + k = n + (k + 1) := by omega
          rw [this]
        · right
          refine ⟨?_, hs⟩
          rw [hp]
          have : n + 1 + ls.length = n + (ls.length + 1) := by omega
          rw [this]
          rfl
  | soft content rest pos ls h hr hd ih =>
    intro pre suf ht n
    by_cases hle : utf8Len pre ≤ utf8Len content
    · left
      obtain ⟨d, hcd, hsd⟩ := boundary_split_le ht.symm hle
      have hcov : pos ≤ pos + utf8Len pre ∧
          pos + utf8Len pre ≤ pos + utf8Len content := by omega
      refine ⟨0, ⟨content, pos, pos + utf8Len content⟩, ?_, by simp, ?_⟩
      · rw [posGo, if_pos hcov]
        simp
      · have hsub : pos + utf8Len pre - pos = utf8Len pre := by omega
        simp only [hsub]
        rw [hcd, takeBytes_exact]
        have := walkCol_exact cw hcw pre d 0
        rw [Nat.zero_add] at this
        rw [this]
    · push_neg at hle
      obtain ⟨d, hpd, hrd⟩ := boundary_split_gt ht.symm hle
      have hi : pos + utf8Len pre = (pos + utf8Len content) + utf8Len d := by
        rw [hpd, utf8Len_append]
        omega
      have hnc : ¬ (pos ≤ pos + utf8Len pre ∧
          pos + utf8Len pre ≤ pos + utf8Len content) := by
        intro hcov
        omega
      rw [posGo, if_neg hnc, hi]
      rcases ih d suf hrd (n + 1) with ⟨k, l, hp, hk, hw⟩ | ⟨hp, hs⟩
      · left
        refine ⟨k + 1, l, ?_, by simpa using hk, hw⟩
        rw [hp]
        have : n + 1 + k = n + (k + 1) := by omega
        rw [this]
      · right
        refine ⟨?_, hs⟩
        rw [hp]
        have : n + 1 + ls.length = n + (ls.length + 1) := by omega
        rw [this]
        rfl

theorem index_at_position_eq (cw : Char → Nat) (w : WrapText) (col row : Nat) :
    WrapText.index_at_position cw w (col, row) =
      match w.lines[row]? with
      | none => utf8Len w.content
      | some l => l.start_index + walkCol cw l.content 0 col := rfl

/-- C6: cursor-mapping round trip — for every width function assigning each
character a positive display width (the spec's model: wide characters count
2, all others 1), every text, every wrap width, and every byte index on a
character boundary of the text, `index_at_position (position i)` returns
exactly `i` on the `WrapText` built from that text and width. -/
theorem cursor_roundtrip (cw : Char → Nat) (hcw : ∀ c, 1 ≤ cw c)
    (text : List Char) (width i : Nat) (hi : IsBoundary text i) :
    WrapText.index_at_position cw (WrapText.new cw text width)
      (WrapText.position cw (WrapText.new cw text width) i) = i := by
  obtain ⟨pre, suf, rfl, rfl⟩ := hi
  by_cases hw : width = 0
  · subst hw
    have hcov : (0 : Nat) ≤ utf8Len pre ∧ utf8Len pre ≤ utf8Len (pre ++ suf) := by
      constructor
      · omega
      · rw [utf8Len_append]
        omega
    have hpos : WrapText.position cw (WrapText.new cw (pre ++ suf) 0) (utf8Len pre)
        = (widthSum cw (takeBytes (utf8Len pre - 0) (pre ++ suf)), 0) := by
      show posGo cw (utf8Len pre) (wrapText cw (pre ++ suf) 0) 0 = _
      rw [wrapText, if_pos rfl, posGo, if_pos hcov]
    rw [hpos, index_at_position_eq]
    have hsome : (WrapText.new cw (pre ++ suf) 0).lines[(0 : Nat)]?
        = some ⟨pre ++ suf, 0, utf8Len (pre ++ suf)⟩ := by
      show (wrapText cw (pre ++ suf) 0)[(0 : Nat)]? = _
      rw [wrapText, if_pos rfl]
      simp
    rw [hsome]
    show (0 : Nat) + walkCol cw (pre ++ suf) 0
        (widthSum cw (takeBytes (utf8Len pre - 0) (pre ++ suf))) = utf8Len pre
    rw [Nat.sub_zero, takeBytes_exact]
    have hwk := walkCol_exact cw hcw pre suf 0
    rw [Nat.zero_add] at hwk
    rw [hwk, Nat.zero_add]
  · obtain ⟨hdec, hne⟩ := wrapText_decomp cw (pre ++ suf) width hw
    rcases decomp_scan cw hcw hdec pre suf rfl 0 with ⟨k, l, hp, hk, hwalk⟩ | ⟨hp, rfl⟩
    · simp only [Nat.zero_add] at hp hwalk
      have hpos : WrapText.position cw (WrapText.new cw (pre ++ suf) width)
          (utf8Len pre)
          = (widthSum cw (takeBytes (utf8Len pre - l.start_index) l.content), k) := hp
      rw [hpos, index_at_position_eq]
      have hk' : (WrapText.new cw (pre ++ suf) width).lines[k]? = some l := hk
      rw [hk']
      exact hwalk
    · simp only [Nat.zero_add] at hp
      have hpos : WrapText.position cw (WrapText.new cw (pre ++ []) width)
          (utf8Len pre)
          = (0, (wrapText cw (pre ++ []) width).length) := hp
      rw [hpos, index_at_position_eq]
      have hnone : (WrapText.new cw (pre ++ []) width).lines[
          (wrapText cw (pre ++ []) width).length]? = none :=
        List.getElem?_eq_none (Nat.le_refl _)
      rw [hnone]
      show utf8Len (pre ++ ([] : List Char)) = utf8Len pre
      rw [List.append_nil]

/-- Witness for `cursor_roundtrip` at a concrete input. -/
theorem cursor_roundtrip_witness :
    WrapText.index_at_position rustCharWidth (WrapText.new rustCharWidth ['a', 'b'] 1)
      (WrapText.position rustCharWidth (WrapText.new rustCharWidth ['a', 'b'] 1) 1)
      = 1 :=
  cursor_roundtrip rustCharWidth rustCharWidth_pos ['a', 'b'] 1 1 ⟨['a'], ['b'], rfl, rfl⟩

/-!
## The application document model (`src/app.rs`, `src/undo.rs`)

The snapshot's `app.rs` wraps components in a `CommandPart::Value`
constructor that the snapshot's `command.rs` does not declare (its
`Command` stores plain strings).  The document is modelled as the plain
string sequence of `command.rs`, the authoritative Document type; the
undo/redo and mutation logic is `app.rs`'s.  `Vec` operations return
`Option`: `none` marks a Rust panic (out-of-range index).
-/

/-- `Vec::remove(i)`: the removed element and the remaining vector; `none`
when `i` is out of range (Rust panics). -/
def listRemoveAt {α : Type} : Nat → List α → Option (α × List α)
  | _, [] => none
  | 0, x :: xs => some (x, xs)
  | n + 1, x :: xs => (listRemoveAt n xs).map fun p => (p.1, x :: p.2)

/-- `Vec::insert(i, v)`: `none` when `i > len` (Rust panics). -/
def listInsertAt {α : Type} : Nat → α → List α → Option (List α)
  | 0, v, xs => some (v :: xs)
  | _ + 1, _, [] => none
  | n + 1, v, x :: xs => (listInsertAt n v xs).map fun ys => x :: ys

/-- `std::mem::replace(&mut v[i], new)`: the previous element and the
updated vector; `none` when `i` is out of range (Rust panics). -/
def listSetAt {α : Type} : Nat → α → List α → Option (α × List α)
  | _, _, [] => none
  | 0, v, x :: xs => some (x, v :: xs)
  | n + 1, v, x :: xs => (listSetAt n v xs).map fun p => (p.1, x :: p.2)

/-- An undoable action (`src/undo.rs` / `src/app.rs`). -/
inductive UndoAction : Type
  | insert (position : Nat) (inserted_value : List Char)
  | edit (position : Nat) (original_value updated_value : List Char)
  | delete (position : Nat) (deleted_value : List Char)
deriving DecidableEq

/-- The application state: document components, list selection, input-mode
flag, scratch input, and the two undo stacks (head = top of stack). -/
structure App where
  cmd : List (List Char)
  selected : Option Nat
  inputMode : Bool
  currentInput : List Char
  undoStack : List UndoAction
  redoStack : List UndoAction
deriving DecidableEq

/-- `App::new`: selection starts at index 0, both stacks empty. -/
def App.new (cmd : List (List Char)) : App :=
  ⟨cmd, some 0, false, [], [], []⟩

/-- The selection repair performed by undo-of-insert and redo-of-delete. -/
def clampSel (count position : Nat) : Option Nat :=
  if count = 0 then none
  else if position ≥ count then some (count - 1)
  else some position

/-- One arm of `App::undo`, given the popped action. -/
def undoStep : UndoAction → List UndoAction → App → Option App
  | .insert p v, rest, a =>
    match listRemoveAt p a.cmd with
    | none => none
    | some (_, cmd2) =>
      some { a with
             cmd := cmd2,
             selected := clampSel cmd2.length p,
             undoStack := rest,
             redoStack := .insert p v :: a.redoStack }
  | .edit p orig upd, rest, a =>
    match listSetAt p orig a.cmd with
    | none => none
    | some (_, cmd2) =>
      some { a with
             cmd := cmd2,
             selected := some p,
             undoStack := rest,
             redoStack := .edit p orig upd :: a.redoStack }
  | .delete p v, rest, a =>
    match listInsertAt p v a.cmd with
    | none => none
    | some cmd2 =>
      some { a with
             cmd := cmd2,
             selected := some p,
             undoStack := rest,
             redoStack := .delete p v :: a.redoStack }

/-- `App::undo`: silent no-op on an empty stack. -/
def App.undo (a : App) : Option App :=
  match a.undoStack with
  | [] => some a
  | act :: rest => undoStep act rest a

/-- One arm of `App::redo`, given the popped action. -/
def redoStep : UndoAction → List UndoAction → App → Option App
  | .insert p v, rest, a =>
    match listInsertAt p v a.cmd with
    | none => none
    | some cmd2 =>
      some { a with
             cmd := cmd2,
             selected := some p,
             undoStack := .insert p v :: a.undoStack,
             redoStack := rest }
  | .edit p orig upd, rest, a =>
    match listSetAt p upd a.cmd with
    | none => none
    | some (_, cmd2) =>
      some { a with
             cmd := cmd2,
             selected := some p,
             undoStack := .edit p orig upd :: a.undoStack,
             redoStack := rest }
  | .delete p v, rest, a =>
    match listRemoveAt p a.cmd with
    | none => none
    | some (_, cmd2) =>
      some { a with
             cmd := cmd2,
             selected := clampSel cmd2.length p,
             undoStack := .delete p v :: a.undoStack,
             redoStack := rest }

/-- `App::redo`: silent no-op on an empty stack; pushes back onto the undo
stack without clearing the redo stack. -/
def App.redo (a : App) : Option App :=
  match a.redoStack with
  | [] => some a
  | act :: rest => redoStep act rest a

/-- `App::insert_new_component_at`: insert an empty value, select it, and
push the undo action as a fresh user edit (clearing the redo stack). -/
def App.insertNewComponentAt (a : App) (insert_at : Nat) : Option App :=
  match listInsertAt insert_at [] a.cmd with
  | none => none
  | some cmd2 =>
    some { a with
           cmd := cmd2,
           selected := some insert_at,
           undoStack := .insert insert_at [] :: a.undoStack,
           redoStack := [] }

/-- `App::insert_new_component`. -/
def App.insertNewComponent (a : App) : Option App :=
  a.insertNewComponentAt (a.selected.getD 0)

/-- `App::append_new_component`. -/
def App.appendNewComponent (a : App) : Option App :=
  a.insertNewComponentAt
    (match a.selected with
     | some i => i + 1
     | none => a.cmd.length)

/-- The body of `App::delete_selected_component` once a selection exists. -/
def deleteSelectedAt (a : App) (selected : Nat) : Option App :=
  match listRemoveAt selected a.cmd with
  | none => none
  | some (v, cmd2) =>
    some { a with
           cmd := cmd2,
           selected :=
             if cmd2.length = 0 then none
             else if selected ≥ cmd2.length then some (cmd2.length - 1)
             else some selected,
           undoStack := .delete selected v :: a.undoStack,
           redoStack := [] }

/-- `App::delete_selected_component`. -/
def App.deleteSelectedComponent (a : App) : Option App :=
  match a.selected with
  | none => some a
  | some selected => deleteSelectedAt a selected

/-- The body of `App::confirm_input` once a selection exists. -/
def confirmInputAt (a : App) (selected : Nat) : Option App :=
  match listSetAt selected a.currentInput a.cmd with
  | none => none
  | some (old, cmd2) =>
    some { a with
           cmd := cmd2,
           undoStack := .edit selected old a.currentInput :: a.undoStack,
           redoStack := [],
           inputMode := false,
           currentInput := [] }

/-- `App::confirm_input`: replace the selected component's value with the
scratch input and record the edit. -/
def App.confirmInput (a : App) : Option App :=
  match a.selected with
  | none => some { a with inputMode := false, currentInput := [] }
  | some selected => confirmInputAt a selected

/-- `App::select_next_component`. -/
def App.selectNextComponent (a : App) : App :=
  let start := a.selected.getD 0
  let i := if start ≥ a.cmd.length - 1 then 0 else start + 1
  { a with selected := some i }

/-- `App::select_previous_component`. -/
def App.selectPreviousComponent (a : App) : App :=
  let start := a.selected.getD 0
  let i := if start = 0 then a.cmd.length - 1 else start - 1
  { a with selected := some i }

/-!
## Selection navigation (C9)
-/

/-- C9 (amended): for every `App` with at least one component whose
selection is `none` or a valid index, `select_next_component` and
`select_previous_component` leave the selection strictly below
`component_count()`, wrap from the last index to 0 and from 0 to the last
index, and the `component_count() - 1` subtraction they perform never
underflows. -/
theorem select_wraps_amended (a : App) (h1 : 1 ≤ a.cmd.length)
    (h2 : a.selected = none ∨ ∃ i, a.selected = some i ∧ i < a.cmd.length) :
    (∃ j, (a.selectNextComponent).selected = some j ∧ j < a.cmd.length) ∧
    (∃ j, (a.selectPreviousComponent).selected = some j ∧ j < a.cmd.length) ∧
    (a.selected = some (a.cmd.length - 1) →
      (a.selectNextComponent).selected = some 0) ∧
    (a.selected = some 0 →
      (a.selectPreviousComponent).selected = some (a.cmd.length - 1)) ∧
    (a.cmd.length - 1) + 1 = a.cmd.length := by
  refine ⟨?_, ?_, ?_, ?_, by omega⟩
  · rcases h2 with hn | ⟨i, hi, hlt⟩
    · refine ⟨if (0 : Nat) ≥ a.cmd.length - 1 then 0 else 1, ?_, ?_⟩
      · simp [App.selectNextComponent, hn]
      · split <;> omega
    · refine ⟨if i ≥ a.cmd.length - 1 then 0 else i + 1, ?_, ?_⟩
      · simp [App.selectNextComponent, hi]
      · split <;> omega
  · rcases h2 with hn | ⟨i, hi, hlt⟩
    · refine ⟨a.cmd.length - 1, ?_, by omega⟩
      simp [App.selectPreviousComponent, hn]
    · refine ⟨if i = 0 then a.cmd.length - 1 else i - 1, ?_, ?_⟩
      · simp [App.selectPreviousComponent, hi]
      · split <;> omega
  · intro hsel
    simp [App.selectNextComponent, hsel]
  · intro hsel
    simp [App.selectPreviousComponent, hsel]

/-- C9 counterexample: with one component but a stale out-of-range
selection, `select_previous_component` leaves an out-of-range index, so
the claim without a selection-validity hypothesis is false. -/
theorem select_previous_stale_cex :
    (App.selectPreviousComponent ⟨[['x']], some 5, false, [], [], []⟩).selected
        = some 4 ∧
      ((⟨[['x']], some 5, false, [], [], []⟩ : App)).cmd.length = 1 ∧ ¬ (4 < 1) := by
  refine ⟨?_, rfl, by omega⟩
  rfl

/-- Witness for `select_wraps_amended` at a concrete input. -/
theorem select_wraps_witness :
    (App.selectPreviousComponent ⟨[['x'], ['y']], some 0, false, [], [], []⟩).selected
      = some ((⟨[['x'], ['y']], some 0, false, [], [], []⟩ : App).cmd.length - 1) :=
  (select_wraps_amended ⟨[['x'], ['y']], some 0, false, [], [], []⟩ (by decide)
    (Or.inr ⟨0, rfl, by decide⟩)).2.2.2.1 rfl

/-!
## The undo/redo inverse law (C4)
-/

/-- One session mutation: a selection change (no undo push) or one of the
document mutations insert/append/delete/edit.  An edit sets the scratch
input and confirms it. -/
inductive Mut : Type
  | select (s : Option Nat)
  | insert
  | append
  | delete
  | edit (v : List Char)

/-- Apply one mutation through the `App` methods. -/
def applyMut (a : App) : Mut → Option App
  | .select s => some { a with selected := s }
  | .insert => a.insertNewComponent
  | .append => a.appendNewComponent
  | .delete => a.deleteSelectedComponent
  | .edit v => App.confirmInput { a with currentInput := v }

/-- Apply a sequence of mutations; `none` if any of them panics. -/
def runMuts (a : App) : List Mut → Option App
  | [] => some a
  | m :: ms =>
    match applyMut a m with
    | none => none
    | some b => runMuts b ms

/-- Call `undo()` the given number of times. -/
def iterUndo (a : App) : Nat → Option App
  | 0 => some a
  | n + 1 =>
    match a.undo with
    | none => none
    | some b => iterUndo b n

/-- Call `redo()` the given number of times. -/
def iterRedo (a : App) : Nat → Option App
  | 0 => some a
  | n + 1 =>
    match a.redo with
    | none => none
    | some b => iterRedo b n

/-- The forward document effect of a recorded action, checking the validity
facts its payload records (that the edited slot held `original_value`, that
the deleted slot held `deleted_value`). -/
def Forward : UndoAction → List (List Char) → Option (List (List Char))
  | .insert p v, cs => listInsertAt p v cs
  | .edit p orig upd, cs =>
    match listSetAt p upd cs with
    | none => none
    | some (old, cs2) => if old = orig then some cs2 else none
  | .delete p v, cs =>
    match listRemoveAt p cs with
    | none => none
    | some (x, cs2) => if x = v then some cs2 else none

/-- The undo stack explains the current document relative to the initial
one: replaying the stack bottom-to-top from the initial document produces
the current document. -/
def StackOk (init : List (List Char)) : List UndoAction → List (List Char) → Prop
  | [], cmd => cmd = init
  | act :: rest, cmd => ∃ prev, StackOk init rest prev ∧ Forward act prev = some cmd

/-- Replaying a list of actions front-to-back transforms one document into
another. -/
def RedoChain : List UndoAction → List (List Char) → List (List Char) → Prop
  | [], c, t => c = t
  | act :: rest, c, t => ∃ c2, Forward act c = some c2 ∧ RedoChain rest c2 t

theorem insert_remove_cancel {α : Type} :
    ∀ (p : Nat) (v : α) (xs ys : List α),
      listInsertAt p v xs = some ys → listRemoveAt p ys = some (v, xs) := by
  intro p
  induction p with
  | zero =>
    intro v xs ys h
    rw [listInsertAt] at h
    cases h
    rfl
  | succ n ih =>
    intro v xs ys h
    cases xs with
    | nil => rw [listInsertAt] at h; cases h
    | cons x xs2 =>
      rw [listInsertAt] at h
      cases hrec : listInsertAt n v xs2 with
      | none => rw [hrec] at h; cases h
      | some zs =>
        rw [hrec] at h
        have hy : ys = x :: zs := by
          cases h
          rfl
        subst hy
        rw [listRemoveAt, ih v xs2 zs hrec]
        rfl

theorem remove_insert_cancel {α : Type} :
    ∀ (p : Nat) (v : α) (xs ys : List α),
      listRemoveAt p xs = some (v, ys) → listInsertAt p v ys = some xs := by
  intro p
  induction p with
  | zero =>
    intro v xs ys h
    cases xs with
    | nil => rw [listRemoveAt] at h; cases h
    | cons x xs2 =>
      rw [listRemoveAt] at h
      have : x = v ∧ xs2 = ys := by
        have h2 : (some (x, xs2) : Option (α × List α)) = some (v, ys) := h
        cases h2
        exact ⟨rfl, rfl⟩
      obtain ⟨rfl, rfl⟩ := this
      rfl
  | succ n ih =>
    intro v xs ys h
    cases xs with
    | nil => rw [listRemoveAt] at h; cases h
    | cons x xs2 =>
      rw [listRemoveAt] at h
      cases hrec : listRemoveAt n xs2 with
      | none => rw [hrec] at h; cases h
      | some pz =>
        rw [hrec] at h
        obtain ⟨w, zs⟩ := pz
        have : w = v ∧ x :: zs = ys := by
          have h2 : (some (w, x :: zs) : Option (α × List α)) = some (v, ys) := h
          cases h2
          exact ⟨rfl, rfl⟩
        obtain ⟨hwv, hys⟩ := this
        subst hwv
        subst hys
        rw [listInsertAt, ih w xs2 zs hrec]
        rfl

theorem set_set_cancel {α : Type} :
    ∀ (p : Nat) (v old : α) (xs ys : List α),
      listSetAt p v xs = some (old, ys) → listSetAt p old ys = some (v, xs) := by
  intro p
  induction p with
  | zero =>
    intro v old xs ys h
    cases xs with
    | nil => rw [listSetAt] at h; cases h
    | cons x xs2 =>
      rw [listSetAt] at h
      have : x = old ∧ v :: xs2 = ys := by
        have h2 : (some (x, v :: xs2) : Option (α × List α)) = some (old, ys) := h
        cases h2
        exact ⟨rfl, rfl⟩
      obtain ⟨rfl, rfl⟩ := this
      rfl
  | succ n ih =>
    intro v old xs ys h
    cases xs with
    | nil => rw [listSetAt] at h; cases h
    | cons x xs2 =>
      rw [listSetAt] at h
      cases hrec : listSetAt n v xs2 with
      | none => rw [hrec] at h; cases h
      | some pz =>
        rw [hrec] at h
        obtain ⟨w, zs⟩ := pz
        have : w = old ∧ x :: zs = ys := by
          have h2 : (some (w, x :: zs) : Option (α × List α)) = some (old, ys) := h
          cases h2
          exact ⟨rfl, rfl⟩
        obtain ⟨hwold, hys⟩ := this
        subst hwold
        subst hys
        rw [listSetAt, ih v w xs2 zs hrec]
        rfl

theorem undo_step_spec {a : App} {act : UndoAction} {rest : List UndoAction}
    {prev : List (List Char)}
    (hs : a.undoStack = act :: rest) (hf : Forward act prev = some a.cmd) :
    ∃ b, a.undo = some b ∧ b.cmd = prev ∧ b.undoStack = rest ∧
      b.redoStack = act :: a.redoStack := by
  have hu : a.undo = undoStep act rest a := by
    rw [App.undo, hs]
  cases act with
  | insert p v =>
    have hr : listRemoveAt p a.cmd = some (v, prev) :=
      insert_remove_cancel p v prev a.cmd hf
    refine ⟨{ a with
              cmd := prev,
              selected := clampSel prev.length p,
              undoStack := rest,
              redoStack := .insert p v :: a.redoStack }, ?_, rfl, rfl, rfl⟩
    rw [hu, undoStep, hr]
  | edit p orig upd =>
    have hset : listSetAt p upd prev = some (orig, a.cmd) := by
      rw [Forward] at hf
      cases hq : listSetAt p upd prev with
      | none => rw [hq] at hf; cases hf
      | some pz =>
        obtain ⟨old, cs2⟩ := pz
        rw [hq] at hf
        have hf2 : (if old = orig then some cs2 else none) = some a.cmd := hf
        by_cases ho : old = orig
        · rw [if_pos ho] at hf2
          cases hf2
          rw [ho]
        · rw [if_neg ho] at hf2
          cases hf2
    have hr : listSetAt p orig a.cmd = some (upd, prev) :=
      set_set_cancel p upd orig prev a.cmd hset
    refine ⟨{ a with
              cmd := prev,
              selected := some p,
              undoStack := rest,
              redoStack := .edit p orig upd :: a.redoStack }, ?_, rfl, rfl, rfl⟩
    rw [hu, undoStep, hr]
  | delete p v =>
    have hrem : listRemoveAt p prev = some (v, a.cmd) := by
      rw [Forward] at hf
      cases hq : listRemoveAt p prev with
      | none => rw [hq] at hf; cases hf
      | some pz =>
        obtain ⟨x, cs2⟩ := pz
        rw [hq] at hf
        have hf2 : (if x = v then some cs2 else none) = some a.cmd := hf
        by_cases hx : x = v
        · rw [if_pos hx] at hf2
          cases hf2
          rw [hx]
        · rw [if_neg hx] at hf2
          cases hf2
    have hr : listInsertAt p v a.cmd = some prev :=
      remove_insert_cancel p v prev a.cmd hrem
    refine ⟨{ a with
              cmd := prev,
              selected := some p,
              undoStack := rest,
              redoStack := .delete p v :: a.redoStack }, ?_, rfl, rfl, rfl⟩
    rw [hu, undoStep, hr]

theorem redo_step_spec {a : App} {act : UndoAction} {rest : List UndoAction}
    {c2 : List (List Char)}
    (hs : a.redoStack = act :: rest) (hf : Forward act a.cmd = some c2) :
    ∃ b, a.redo = some b ∧ b.cmd = c2 ∧ b.redoStack = rest ∧
      b.undoStack = act :: a.undoStack := by
  have hu : a.redo = redoStep act rest a := by
    rw [App.redo, hs]
  cases act with
  | insert p v =>
    have hr : listInsertAt p v a.cmd = some c2 := hf
    refine ⟨{ a with
              cmd := c2,
              selected := some p,
              undoStack := .insert p v :: a.undoStack,
              redoStack := rest }, ?_, rfl, rfl, rfl⟩
    rw [hu, redoStep, hr]
  | edit p orig upd =>
    have hset : ∃ old, listSetAt p upd a.cmd = some (old, c2) := by
      rw [Forward] at hf
      cases hq : listSetAt p upd a.cmd with
      | none => rw [hq] at hf; cases hf
      | some pz =>
        obtain ⟨old, cs2⟩ := pz
        rw [hq] at hf
        have hf2 : (if old = orig then some cs2 else none) = some c2 := hf
        by_cases ho : old = orig
        · rw [if_pos ho] at hf2
          cases hf2
          exact ⟨old, rfl⟩
        · rw [if_neg ho] at hf2
          cases hf2
    obtain ⟨old, hq⟩ := hset
    refine ⟨{ a with
              cmd := c2,
              selected := some p,
              undoStack := .edit p orig upd :: a.undoStack,
              redoStack := rest }, ?_, rfl, rfl, rfl⟩
    rw [hu, redoStep, hq]
  | delete p v =>
    have hrem : ∃ x, listRemoveAt p a.cmd = some (x, c2) := by
      rw [Forward] at hf
      cases hq : listRemoveAt p a.cmd with
      | none => rw [hq] at hf; cases hf
      | some pz =>
        obtain ⟨x, cs2⟩ := pz
        rw [hq] at hf
        have hf2 : (if x = v then some cs2 else none) = some c2 := hf
        by_cases hx : x = v
        · rw [if_pos hx] at hf2
          cases hf2
          exact ⟨x, rfl⟩
        · rw [if_neg hx] at hf2
          cases hf2
    obtain ⟨x, hq⟩ := hrem
    refine ⟨{ a with
              cmd := c2,
              selected := clampSel c2.length p,
              undoStack := .delete p v :: a.undoStack,
              redoStack := rest }, ?_, rfl, rfl, rfl⟩
    rw [hu, redoStep, hq]

theorem mut_preserves {init : List (List Char)} {a b : App} (m : Mut)
    (hok : StackOk init a.undoStack a.cmd) (h : applyMut a m = some b) :
    StackOk init b.undoStack b.cmd := by
  cases m with
  | select s =>
    rw [applyMut] at h
    cases h
    exact hok
  | insert =>
    rw [applyMut, App.insertNewComponent, App.insertNewComponentAt] at h
    cases hins : listInsertAt (a.selected.getD 0) [] a.cmd with
    | none => rw [hins] at h; cases h
    | some cmd2 =>
      rw [hins] at h
      cases h
      exact ⟨a.cmd, hok, hins⟩
  | append =>
    rw [applyMut, App.appendNewComponent, App.insertNewComponentAt] at h
    cases hins : listInsertAt
        (match a.selected with
         | some i => i + 1
         | none => a.cmd.length) [] a.cmd with
    | none => rw [hins] at h; cases h
    | some cmd2 =>
      rw [hins] at h
      cases h
      exact ⟨a.cmd, hok, hins⟩
  | delete =>
    rw [applyMut, App.deleteSelectedComponent] at h
    cases hsel : a.selected with
    | none =>
      rw [hsel] at h
      cases h
      exact hok
    | some i =>
      rw [hsel] at h
      have h2 : deleteSelectedAt a i = some b := h
      rw [deleteSelectedAt] at h2
      cases hrem : listRemoveAt i a.cmd with
      | none => rw [hrem] at h2; cases h2
      | some pz =>
        obtain ⟨v, cmd2⟩ := pz
        rw [hrem] at h2
        cases h2
        refine ⟨a.cmd, hok, ?_⟩
        simp [Forward, hrem]
  | edit v =>
    rw [applyMut, App.confirmInput] at h
    cases hsel : a.selected with
    | none =>
      rw [hsel] at h
      cases h
      exact hok
    | some i =>
      rw [hsel] at h
      have h3 : (match listSetAt i v a.cmd with
          | none => (none : Option App)
          | some (old2, cmd2) =>
            some ⟨cmd2, some i, false, [],
              .edit i old2 v :: a.undoStack, []⟩) = some b := h
      cases hset : listSetAt i v a.cmd with
      | none => rw [hset] at h3; cases h3
      | some pz =>
        obtain ⟨old2, cmd2⟩ := pz
        rw [hset] at h3
        cases h3
        refine ⟨a.cmd, hok, ?_⟩
        simp [Forward, hset]

theorem runMuts_stackOk :
    ∀ (ops : List Mut) (a b : App) (init : List (List Char)),
      StackOk init a.undoStack a.cmd → runMuts a ops = some b →
      StackOk init b.undoStack b.cmd := by
  intro ops
  induction ops with
  | nil =>
    intro a b init hok h
    rw [runMuts] at h
    cases h
    exact hok
  | cons m ms ih =>
    intro a b init hok h
    rw [runMuts] at h
    cases hm : applyMut a m with
    | none => rw [hm] at h; cases h
    | some c =>
      rw [hm] at h
      exact ih c b init (mut_preserves m hok hm) h

theorem redoChain_append :
    ∀ (l1 l2 : List UndoAction) (c t : List (List Char)),
      RedoChain (l1 ++ l2) c t ↔ ∃ m, RedoChain l1 c m ∧ RedoChain l2 m t := by
  intro l1
  induction l1 with
  | nil =>
    intro l2 c t
    constructor
    · intro h
      exact ⟨c, rfl, h⟩
    · intro ⟨m, hm, h⟩
      rw [RedoChain] at hm
      rw [hm]
      exact h
  | cons act rest ih =>
    intro l2 c t
    constructor
    · intro ⟨c2, hf, h⟩
      obtain ⟨m, hm, h2⟩ := (ih l2 c2 t).mp h
      exact ⟨m, ⟨c2, hf, hm⟩, h2⟩
    · intro ⟨m, ⟨c2, hf, hm⟩, h⟩
      exact ⟨c2, hf, (ih l2 c2 t).mpr ⟨m, hm, h⟩⟩

theorem stackOk_redoChain :
    ∀ (stack : List UndoAction) (init cmd : List (List Char)),
      StackOk init stack cmd → RedoChain stack.reverse init cmd := by
  intro stack
  induction stack with
  | nil =>
    intro init cmd h
    rw [StackOk] at h
    rw [h]
    rfl
  | cons act rest ih =>
    intro init cmd h
    obtain ⟨prev, hok, hf⟩ := h
    rw [List.reverse_cons]
    exact (redoChain_append rest.reverse [act] init cmd).mpr
      ⟨prev, ih init prev hok, ⟨cmd, hf, rfl⟩⟩

theorem undo_phase :
    ∀ (stack : List UndoAction) (a : App) (init : List (List Char)),
      a.undoStack = stack → StackOk init stack a.cmd →
      ∃ b, iterUndo a stack.length = some b ∧ b.cmd = init ∧
        b.undoStack = [] ∧ b.redoStack = stack.reverse ++ a.redoStack := by
  intro stack
  induction stack with
  | nil =>
    intro a init hs hok
    exact ⟨a, rfl, hok, hs, by simp⟩
  | cons act rest ih =>
    intro a init hs hok
    obtain ⟨prev, hokr, hf⟩ := hok
    obtain ⟨b, hb, hbcmd, hbstack, hbredo⟩ := undo_step_spec hs hf
    obtain ⟨c, hc, hccmd, hcstack, hcredo⟩ := ih b init hbstack
      (by rw [hbcmd]; exact hokr)
    refine ⟨c, ?_, hccmd, hcstack, ?_⟩
    · show iterUndo a (rest.length + 1) = some c
      rw [iterUndo, hb]
      exact hc
    · rw [hcredo, hbredo, List.reverse_cons, List.append_assoc]
      rfl

theorem redo_phase :
    ∀ (racts : List UndoAction) (a : App) (t : List (List Char))
      (rrem : List UndoAction),
      a.redoStack = racts ++ rrem → RedoChain racts a.cmd t →
      ∃ b, iterRedo a racts.length = some b ∧ b.cmd = t := by
  intro racts
  induction racts with
  | nil =>
    intro a t rrem hs hchain
    rw [RedoChain] at hchain
    exact ⟨a, rfl, hchain⟩
  | cons act rest ih =>
    intro a t rrem hs hchain
    obtain ⟨c2, hf, hchain2⟩ := hchain
    obtain ⟨b, hb, hbcmd, hbredo, hbundo⟩ := redo_step_spec (by rw [hs]; rfl) hf
    obtain ⟨c, hc, hccmd⟩ := ih b t rrem hbredo (by rw [hbcmd]; exact hchain2)
    refine ⟨c, ?_, hccmd⟩
    show iterRedo a (rest.length + 1) = some c
    rw [iterRedo, hb]
    exact hc

/-- C4: undo/redo inverse law — for every initial document and every
sequence of session mutations applied through the `App` (selection moves
plus insert/append/delete/edit, each document mutation pushing its
`UndoAction`), if the run completes without a panic, then calling `undo()`
once per recorded action restores the document to component-by-component
equality with the initial document, and then calling `redo()` the same
number of times restores the document that held before the undos. -/
theorem app_undo_redo_inverse (init : List (List Char)) (ops : List Mut) (a : App)
    (h : runMuts (App.new init) ops = some a) :
    ∃ a2, iterUndo a a.undoStack.length = some a2 ∧ a2.cmd = init ∧
      ∃ a3, iterRedo a2 a.undoStack.length = some a3 ∧ a3.cmd = a.cmd := by
  have hok : StackOk init a.undoStack a.cmd :=
    runMuts_stackOk ops (App.new init) a init rfl h
  obtain ⟨a2, h2, h2cmd, h2stack, h2redo⟩ := undo_phase a.undoStack a init rfl hok
  have hchain : RedoChain a.undoStack.reverse a2.cmd a.cmd := by
    rw [h2cmd]
    exact stackOk_redoChain a.undoStack init a.cmd hok
  obtain ⟨a3, h3, h3cmd⟩ :=
    redo_phase a.undoStack.reverse a2 a.cmd a.redoStack h2redo hchain
  refine ⟨a2, h2, h2cmd, a3, ?_, h3cmd⟩
  rw [← List.length_reverse]
  exact h3

/-- Witness for `app_undo_redo_inverse` at a concrete input: one insert
mutation, one undo, one redo. -/
theorem app_undo_redo_inverse_witness :
    ∃ a2, iterUndo ⟨[[], ['l', 's']], some 0, false, [],
        [UndoAction.insert 0 []], []⟩ 1 = some a2 ∧ a2.cmd = [['l', 's']] ∧
      ∃ a3, iterRedo a2 1 = some a3 ∧ a3.cmd = [[], ['l', 's']] :=
  app_undo_redo_inverse [['l', 's']] [Mut.insert]
    ⟨[[], ['l', 's']], some 0, false, [], [UndoAction.insert 0 []], []⟩ rfl

/-!
## History loading (`src/history.rs`) (C8)

The file system is abstracted: `none` stands for no computable history
path, and a `HistoryFile` is absent, unreadable (present but `File::open`
fails), or readable with its raw lines.  `history.rs` extracts per-flag
values by destructuring a `CommandComponent::StringArgument(flag, value)`
variant that the snapshot's `CommandComponent` does not declare; that
extraction is modelled from the spec: every adjacent Flag+Value pair adds
the value to the flag's deduplicated set.
-/

/-- The supported shells. -/
inductive Shell : Type
  | zsh
  | bash
  | fish

/-- An abstract history file. -/
inductive HistoryFile : Type
  | absent
  | unreadable
  | readable (lines : List (List Char))

/-- Rust `str::strip_prefix`. -/
def stripPrefixList : List Char → List Char → Option (List Char)
  | [], s => some s
  | _ :: _, [] => none
  | p :: ps, c :: cs => if p = c then stripPrefixList ps cs else none

/-- `parse_history_lines` from `src/history.rs`: bash keeps each nonblank
line; zsh strips the extended `": ts:dur;command"` wrapper; fish keeps
only `- cmd: ` / `cmd: ` entries. -/
def parse_history_lines (shell : Shell) (lines : List (List Char)) :
    List (List Char) :=
  match shell with
  | .bash => lines.filter fun line => trimList line ≠ []
  | .zsh =>
    lines.filterMap fun line =>
      let trimmed := trimList line
      if trimmed = [] then none
      else
        match trimmed with
        | ':' :: stripped =>
          if ';' ∈ stripped then
            some ((stripped.dropWhile fun c => c ≠ ';').tail)
          else some trimmed
        | _ => some trimmed
  | .fish =>
    lines.filterMap fun line =>
      let trimmed := trimList line
      match stripPrefixList "- cmd: ".toList trimmed with
      | some cmd => some cmd
      | none =>
        match stripPrefixList "cmd: ".toList trimmed with
        | some cmd => some cmd
        | none => none

/-- `matches_base_command` from `src/history.rs`. -/
def matches_base_command (command : List Char) (base : List (List Char)) : Bool :=
  match shlexSplit command with
  | none => false
  | some tokens =>
    if tokens.length < base.length then false
    else ((tokens.take base.length).zip base).all fun p => p.1 = p.2

/-- Modelled from the spec: the value extraction of `history.rs` — every
adjacent Flag+Value pair of the parsed command contributes its value under
its flag. -/
def flagValuePairs : List CommandComponent → List (List Char × List Char)
  | .flag f :: .value v :: rest => (f, v) :: flagValuePairs rest
  | _ :: rest => flagValuePairs rest
  | [] => []

/-- Lexicographic byte order on strings (Rust `String`'s `Ord`). -/
def lexLe : List Char → List Char → Bool
  | [], _ => true
  | _ :: _, [] => false
  | a :: as2, b :: bs =>
    if a.val < b.val then true
    else if b.val < a.val then false
    else lexLe as2 bs

/-- Insertion into a lexicographically sorted list. -/
def insertSorted (v : List Char) : List (List Char) → List (List Char)
  | [] => [v]
  | x :: xs => if lexLe v x then v :: x :: xs else x :: insertSorted v xs

/-- `Vec::sort` on strings. -/
def sortStrings : List (List Char) → List (List Char)
  | [] => []
  | x :: xs => insertSorted x (sortStrings xs)

/-- Add a value to a flag's deduplicated value list (the
`HashMap<String, HashSet<String>>` of `src/history.rs`, as an association
list). -/
def addValue (m : List (List Char × List (List Char))) (f v : List Char) :
    List (List Char × List (List Char)) :=
  match m with
  | [] => [(f, [v])]
  | (g, vs) :: rest =>
    if g = f then (g, if v ∈ vs then vs else vs ++ [v]) :: rest
    else (g, vs) :: addValue rest f v

/-- `load_history_for_command` from `src/history.rs` over the abstract
history source.  No path or an absent file degrade to an empty map; an
unreadable file propagates the `File::open` error (the `?` operator); a
readable file is scanned newest-first, bounded to 100000 matching
commands, commands that fail to parse are skipped. -/
def load_history_for_command (shell : Shell) (file : Option HistoryFile)
    (base : List (List Char)) :
    Except Unit (List (List Char × List (List Char))) :=
  match file with
  | none => .ok []
  | some .absent => .ok []
  | some .unreadable => .error ()
  | some (.readable rawLines) =>
    let commands := parse_history_lines shell rawLines
    let matching :=
      ((commands.reverse.filter fun c => matches_base_command c base).take 100000)
    let m := matching.foldl
      (fun m c =>
        match parse_command c with
        | .error _ => m
        | .ok comps =>
          (flagValuePairs comps).foldl (fun m p => addValue m p.1 p.2) m)
      []
    .ok (m.map fun p => (p.1, sortStrings p.2))

/-- C8 counterexample: an existing but unreadable history file makes the
`File::open(&history_file)?` in `load_history_for_command` propagate an
I/O error to the caller instead of degrading to an empty suggestion
map. -/
theorem load_history_unreadable_cex :
    load_history_for_command Shell.bash (some HistoryFile.unreadable) []
      = .error () := rfl

/-- C8 (amended): a missing history path or an absent history file yields
the empty suggestion map, and a readable file never yields an error
whatever its contents — unrecognized formats merely degrade to no
suggestions; but an existing file whose open fails propagates an I/O
error. -/
theorem load_history_error_recovery_amended :
    (∀ (sh : Shell) (base : List (List Char)),
      load_history_for_command sh none base = .ok [] ∧
      load_history_for_command sh (some .absent) base = .ok []) ∧
    (∀ (sh : Shell) (base : List (List Char)) (raw : List (List Char)),
      ∃ m, load_history_for_command sh (some (.readable raw)) base = .ok m) ∧
    (∀ (sh : Shell) (base : List (List Char)),
      load_history_for_command sh (some .unreadable) base = .error ()) :=
  ⟨fun _ _ => ⟨rfl, rfl⟩, fun _ _ _ => ⟨_, rfl⟩, fun _ _ => rfl⟩

end Te
